import Mathlib

/-!
Verification of the graph-theory core (`src/graphTheory.js`) of the
`arithamathic` library.

Modelling conventions (shallow embedding):

* JS numbers used as edge weights are modelled as `ℤ` (exact arithmetic);
  `Infinity` in a distance table is modelled by `⊤ : WithTop ℤ`.
* A JS `Map` (the adjacency list) is modelled as an association list
  `List (ℕ × List (ℕ × ℤ))` preserving insertion order; `Map.get` on an
  absent key yields `undefined`, which makes the JS code throw at the
  following property access.  We model such a call by an explicit error
  result (`none` / `RunRes.err`).
* Vertex identifiers are natural numbers; "outside `[0, n)`" is `n ≤ v`.
* `Array.prototype.sort` is stable (ECMAScript 2019); we model it by a
  stable insertion sort `jsSort`, which produces the same list as any
  stable sort with the same comparator.
* Loops and recursions are given an explicit fuel parameter; running out
  of fuel is reported as a distinguished result that theorems exclude.
-/

/-- One stored edge of the adjacency list: target vertex and weight. -/
abbrev AdjEdge := ℕ × ℤ

/-- The adjacency list: a JS `Map` from vertex to its edge array, as an
association list in insertion order. -/
abbrev AdjList := List (ℕ × List AdjEdge)

/-- An edge-list entry `[u, v, weight]` as consumed by `bellmanFord` and
`kruskal`. -/
abbrev EdgeT := ℕ × ℕ × ℤ

/-- `Map.get`: first entry with the given key, if any. -/
def adjGet : AdjList → ℕ → Option (List AdjEdge)
  | [], _ => none
  | (k, l) :: t, u => if k = u then some l else adjGet t u

/-- Keys of the map, in insertion order. -/
def adjKeys (g : AdjList) : List ℕ := g.map Prod.fst

/-- `createAdjacencyList(n)`: every vertex `0 … n-1` mapped to `[]`. -/
def createAdjacencyList (n : ℕ) : AdjList := (List.range n).map (fun i => (i, []))

/-- Replace the edge array stored under key `u` (models mutating the array
object returned by `Map.get`). -/
def adjUpdate (g : AdjList) (u : ℕ) (f : List AdjEdge → List AdjEdge) : AdjList :=
  g.map (fun p => (p.1, if p.1 = u then f p.2 else p.2))

/-- `addEdgeToList(adjList, u, v, weight)`.  `adjList.get(u).push(...)`
throws when `u` is not a key (`undefined.push`); we return `none` there.
The two pushes happen in order, so a self-loop `u = v` appends twice to
the same array. -/
def addEdgeToList (g : AdjList) (u v : ℕ) (w : ℤ) : Option AdjList :=
  match adjGet g u with
  | none => none
  | some _ =>
    let g1 := adjUpdate g u (fun l => l ++ [(v, w)])
    match adjGet g1 v with
    | none => none
    | some _ => some (adjUpdate g1 v (fun l => l ++ [(u, w)]))

/-- A cell of the JS adjacency matrix.  `none` models an array hole
(`undefined`) created by writing past the end of a row. -/
abbrev JsMatrix := List (List (Option ℤ))

/-- `createAdjacencyMatrix(n)`: an `n × n` grid of `0`s. -/
def createAdjacencyMatrix (n : ℕ) : JsMatrix :=
  List.replicate n (List.replicate n (some (0 : ℤ)))

/-- JS array index assignment: in-bounds writes replace, writing at or past
the length extends the array, filling skipped indices with holes. -/
def jsArraySet (row : List (Option ℤ)) (i : ℕ) (x : ℤ) : List (Option ℤ) :=
  if i < row.length then row.set i (some x)
  else row ++ List.replicate (i - row.length) none ++ [some x]

/-- `addEdgeToMatrix(matrix, u, v, weight)`.  Returns the matrix state after
the call together with `true` when the call threw.  `matrix[u][v] = w`
throws iff row `u` is absent (`u ≥` number of rows); the row write itself
never throws (out-of-range column writes extend the row). -/
def addEdgeToMatrix (m : JsMatrix) (u v : ℕ) (w : ℤ) : JsMatrix × Bool :=
  match m[u]? with
  | none => (m, true)
  | some rowU =>
    let m1 := m.set u (jsArraySet rowU v w)
    match m1[v]? with
    | none => (m1, true)
    | some rowV => (m1.set v (jsArraySet rowV u w), false)

/-- Stable insertion of `x` into `l`: `x` goes after every element `y`
with `le y x`. -/
def insertLe (le : α → α → Bool) (x : α) : List α → List α
  | [] => [x]
  | y :: t => if le y x then y :: insertLe le x t else x :: y :: t

/-- The stable sort performed by `Array.prototype.sort` with comparator
`(a, b) => key a - key b`: elements are inserted in order, each after all
earlier elements that compare `≤` to it. -/
def jsSort (le : α → α → Bool) (l : List α) : List α :=
  l.foldl (fun acc x => insertLe le x acc) []

/-- Result of running a fuelled state machine: normal result, JS runtime
error (property access on `undefined`), or fuel exhaustion. -/
inductive RunRes (α : Type) where
  | done (a : α)
  | err
  | fuelOut

/-- `true` iff the run finished normally. -/
def RunRes.isDone : RunRes α → Bool
  | .done _ => true
  | _ => false

theorem RunRes.isDone_iff {x : RunRes α} : x.isDone = true ↔ ∃ a, x = .done a := by
  cases x <;> simp [RunRes.isDone]

theorem insertLe_perm (le : α → α → Bool) (x : α) (l : List α) :
    (insertLe le x l).Perm (x :: l) := by
  induction l with
  | nil => simp [insertLe]
  | cons y t ih =>
    simp only [insertLe]
    split
    · exact ((ih.cons y).trans (List.Perm.swap x y t))
    · exact List.Perm.refl _

theorem jsSort_perm (le : α → α → Bool) (l : List α) : (jsSort le l).Perm l := by
  suffices h : ∀ acc : List α, (l.foldl (fun acc x => insertLe le x acc) acc).Perm (acc ++ l) by
    simpa using h []
  induction l with
  | nil => simp
  | cons x t ih =>
    intro acc
    simp only [List.foldl_cons]
    refine (ih (insertLe le x acc)).trans ?_
    have h1 : (insertLe le x acc ++ t).Perm ((x :: acc) ++ t) :=
      (insertLe_perm le x acc).append_right t
    refine h1.trans ?_
    simpa using (@List.perm_middle _ x acc t).symm

theorem insertLe_pairwise (le : α → α → Bool)
    (htot : ∀ a b, le a b = true ∨ le b a = true)
    (htrans : ∀ a b c, le a b = true → le b c = true → le a c = true)
    (x : α) (l : List α)
    (h : l.Pairwise (fun a b => le a b = true)) :
    (insertLe le x l).Pairwise (fun a b => le a b = true) := by
  induction l with
  | nil => simp [insertLe]
  | cons y t ih =>
    rcases h with - | ⟨hy, ht⟩
    simp only [insertLe]
    split
    · refine List.Pairwise.cons ?_ (ih ht)
      intro b hb
      have hb' := (insertLe_perm le x t).mem_iff.mp hb
      rcases List.mem_cons.mp hb' with rfl | hbt
      · assumption
      · exact hy b hbt
    · rename_i hyx
      have hxy : le x y = true := by
        rcases htot x y with h' | h'
        · exact h'
        · exact absurd h' hyx
      refine List.Pairwise.cons ?_ (List.Pairwise.cons hy ht)
      intro b hb
      rcases List.mem_cons.mp hb with rfl | hbt
      · exact hxy
      · exact htrans x y b hxy (hy b hbt)

theorem jsSort_pairwise (le : α → α → Bool)
    (htot : ∀ a b, le a b = true ∨ le b a = true)
    (htrans : ∀ a b c, le a b = true → le b c = true → le a c = true)
    (l : List α) : (jsSort le l).Pairwise (fun a b => le a b = true) := by
  suffices h : ∀ acc : List α, acc.Pairwise (fun a b => le a b = true) →
      (l.foldl (fun acc x => insertLe le x acc) acc).Pairwise (fun a b => le a b = true) by
    exact h [] (by simp)
  induction l with
  | nil => intro acc hacc; simpa using hacc
  | cons x t ih =>
    intro acc hacc
    exact ih _ (insertLe_pairwise le htot htrans x acc hacc)

/-- Membership of a directed weighted edge, abstracting over the two graph
encodings.  For the adjacency list: `(v, w)` is stored under key `u`. -/
def adjMem (g : AdjList) (u v : ℕ) (w : ℤ) : Prop :=
  ∃ l, adjGet g u = some l ∧ (v, w) ∈ l

/-- Edge membership for an edge list. -/
def edgeMem (E : List EdgeT) (u v : ℕ) (w : ℤ) : Prop := (u, v, w) ∈ E

/-- A walk from `a` to `b` along `mem`-edges; `steps` records, in order,
the target and weight of each edge traversed. -/
inductive WalkSeg (mem : ℕ → ℕ → ℤ → Prop) : ℕ → List AdjEdge → ℕ → Prop where
  | nil (a : ℕ) : WalkSeg mem a [] a
  | cons {a u v : ℕ} {w : ℤ} {steps : List AdjEdge} :
      WalkSeg mem a steps u → mem u v w → WalkSeg mem a (steps ++ [(v, w)]) v

/-- Total weight of a walk. -/
def walkWeight (steps : List AdjEdge) : ℤ := (steps.map Prod.snd).sum

theorem WalkSeg.append_seg {mem : ℕ → ℕ → ℤ → Prop} {a b c : ℕ}
    {p q : List AdjEdge} (h1 : WalkSeg mem a p b) (h2 : WalkSeg mem b q c) :
    WalkSeg mem a (p ++ q) c := by
  induction h2 with
  | nil => simpa using h1
  | cons h e ih => rw [← List.append_assoc]; exact WalkSeg.cons ih e

theorem WalkSeg.mono {mem mem' : ℕ → ℕ → ℤ → Prop}
    (h : ∀ u v w, mem u v w → mem' u v w) {a b : ℕ} {p : List AdjEdge}
    (hw : WalkSeg mem a p b) : WalkSeg mem' a p b := by
  induction hw with
  | nil => exact WalkSeg.nil _
  | cons _ e ih => exact WalkSeg.cons ih (h _ _ _ e)

/-- State of `dijkstra`'s main loop: tentative distances, predecessor map,
priority-queue contents (element, priority). -/
structure DState where
  dist : ℕ → WithTop ℤ
  prev : ℕ → Option ℕ
  queue : List (ℕ × WithTop ℤ)

/-- Priority comparison used by the queue's `sort`. -/
def pqLe (a b : ℕ × WithTop ℤ) : Bool := decide (a.2 ≤ b.2)

/-- One relaxation inside `dijkstra`'s `forEach`: for edge `(v, w)` out of
`u`, if `dist u + w < dist v`, update distance and predecessor and enqueue
`(v, alt)` (push followed by a stable sort on priorities). -/
def relaxEdge (u : ℕ) (st : DState) (e : AdjEdge) : DState :=
  let alt := st.dist u + (e.2 : WithTop ℤ)
  if alt < st.dist e.1 then
    { dist := fun x => if x = e.1 then alt else st.dist x
      prev := fun x => if x = e.1 then some u else st.prev x
      queue := jsSort pqLe (st.queue ++ [(e.1, alt)]) }
  else st

/-- The `while (!priorityQueue.isEmpty())` loop of `dijkstra`.  Dequeue the
head, then relax every outgoing edge; `adjList.get(u)` on an absent key
makes the JS code throw (`.forEach` of `undefined`). -/
def dijkstraLoop (g : AdjList) : ℕ → DState → RunRes DState
  | 0, st => match st.queue with
    | [] => .done st
    | _ => .fuelOut
  | fuel + 1, st => match st.queue with
    | [] => .done st
    | (u, _) :: rest =>
      match adjGet g u with
      | none => .err
      | some edges => dijkstraLoop g fuel (edges.foldl (relaxEdge u) { st with queue := rest })

/-- `dijkstra(adjList, start)`: distances `Infinity` (resp. `0` at `start`),
predecessors `null`, queue seeded with `(start, 0)`.  (For vertices that are
not keys of the map the JS table holds `undefined`, never read under the
well-formedness assumptions used in the theorems; we default those entries
to `Infinity`.) -/
def dijkstra (g : AdjList) (s : ℕ) (fuel : ℕ) :
    RunRes ((ℕ → WithTop ℤ) × (ℕ → Option ℕ)) :=
  let st0 : DState :=
    { dist := fun v => if v = s then (0 : WithTop ℤ) else ⊤
      prev := fun _ => none
      queue := [(s, (0 : WithTop ℤ))] }
  match dijkstraLoop g fuel st0 with
  | .done st => .done (st.dist, st.prev)
  | .err => .err
  | .fuelOut => .fuelOut

/-- One Bellman-Ford relaxation of edge `[u, v, w]`. -/
def bfRelax (st : (ℕ → WithTop ℤ) × (ℕ → Option ℕ)) (e : EdgeT) :
    (ℕ → WithTop ℤ) × (ℕ → Option ℕ) :=
  if st.1 e.1 + (e.2.2 : WithTop ℤ) < st.1 e.2.1 then
    (fun x => if x = e.2.1 then st.1 e.1 + (e.2.2 : WithTop ℤ) else st.1 x,
     fun x => if x = e.2.1 then some e.1 else st.2 x)
  else st

/-- One full pass of `edges.forEach(relax)`. -/
def bfPass (E : List EdgeT) (st : (ℕ → WithTop ℤ) × (ℕ → Option ℕ)) :
    (ℕ → WithTop ℤ) × (ℕ → Option ℕ) :=
  E.foldl bfRelax st

/-- `bellmanFord(edges, vertices, start)`: `vertices - 1` relaxation passes,
then one checking pass; if any edge still relaxes the JS code throws the
negative-weight-cycle error, modelled as `none`.  (Array cells outside
`[0, vertices)` other than `start` are `undefined` in JS and are defaulted
to `Infinity`; theorems restrict edges to in-range endpoints.) -/
def bellmanFord (E : List EdgeT) (n : ℕ) (s : ℕ) :
    Option ((ℕ → WithTop ℤ) × (ℕ → Option ℕ)) :=
  let st0 : (ℕ → WithTop ℤ) × (ℕ → Option ℕ) :=
    (fun v => if v = s then (0 : WithTop ℤ) else ⊤, fun _ => none)
  let st := (bfPass E)^[n - 1] st0
  if E.any (fun e => decide (st.1 e.1 + (e.2.2 : WithTop ℤ) < st.1 e.2.1)) then none
  else some st

/-- Keys are exactly `0 … n-1` and every stored edge targets a key. -/
def WFAdj (g : AdjList) (n : ℕ) : Prop :=
  adjKeys g = List.range n ∧ ∀ p ∈ g, ∀ e ∈ p.2, e.1 < n

/-- All stored weights are non-negative. -/
def AdjNonneg (g : AdjList) : Prop := ∀ p ∈ g, ∀ e ∈ p.2, 0 ≤ e.2

/-- Targets of the successive steps of a walk. -/
def stepTargets (steps : List AdjEdge) : List ℕ := steps.map Prod.fst

/-- The predecessor chain recorded by `previous[]`: each step's target `v`
has `previous[v]` equal to the step's source. -/
inductive PrevChain (prev : ℕ → Option ℕ) : ℕ → List AdjEdge → ℕ → Prop where
  | nil (a : ℕ) : PrevChain prev a [] a
  | cons {a u v : ℕ} {w : ℤ} {steps : List AdjEdge} :
      PrevChain prev a steps u → prev v = some u → PrevChain prev a (steps ++ [(v, w)]) v

/-- Internal invariant-carrying chain: a walk following `prev`-links in
which every link `u → v` of weight `w` satisfies `dist u + w ≤ dist v`
with `dist u` finite. -/
inductive ChainD (g : AdjList) (dist : ℕ → WithTop ℤ) (prev : ℕ → Option ℕ) :
    ℕ → List AdjEdge → ℕ → Prop where
  | nil (a : ℕ) : ChainD g dist prev a [] a
  | cons {a u v : ℕ} {w : ℤ} {steps : List AdjEdge} :
      ChainD g dist prev a steps u → adjMem g u v w → prev v = some u →
      dist u + (w : WithTop ℤ) ≤ dist v → dist u ≠ ⊤ →
      ChainD g dist prev a (steps ++ [(v, w)]) v

theorem ChainD.toWalk {g : AdjList} {dist : ℕ → WithTop ℤ} {prev : ℕ → Option ℕ}
    {a b : ℕ} {steps : List AdjEdge} (h : ChainD g dist prev a steps b) :
    WalkSeg (adjMem g) a steps b := by
  induction h with
  | nil => exact WalkSeg.nil _
  | cons _ e _ _ _ ih => exact WalkSeg.cons ih e

theorem ChainD.toPrevChain {g : AdjList} {dist : ℕ → WithTop ℤ} {prev : ℕ → Option ℕ}
    {a b : ℕ} {steps : List AdjEdge} (h : ChainD g dist prev a steps b) :
    PrevChain prev a steps b := by
  induction h with
  | nil => exact PrevChain.nil _
  | cons _ _ hp _ _ ih => exact PrevChain.cons ih hp

theorem ChainD.end_mem {g : AdjList} {dist : ℕ → WithTop ℤ} {prev : ℕ → Option ℕ}
    {a b : ℕ} {steps : List AdjEdge} (h : ChainD g dist prev a steps b) :
    b = a ∨ b ∈ stepTargets steps := by
  cases h with
  | nil => exact Or.inl rfl
  | cons _ _ _ _ _ => right; simp [stepTargets]

theorem adjGet_eq_some_mem {g : AdjList} {u : ℕ} {l : List AdjEdge}
    (h : adjGet g u = some l) : (u, l) ∈ g := by
  induction g with
  | nil => simp [adjGet] at h
  | cons p t ih =>
    obtain ⟨k, l'⟩ := p
    by_cases hk : k = u
    · subst hk
      simp [adjGet] at h
      subst h
      simp
    · simp [adjGet, hk] at h
      exact List.mem_cons_of_mem _ (ih h)

theorem adjMem_nonneg {g : AdjList} (hnn : AdjNonneg g) {u v : ℕ} {w : ℤ}
    (h : adjMem g u v w) : (0 : ℤ) ≤ w := by
  obtain ⟨l, hl, hm⟩ := h
  exact hnn (u, l) (adjGet_eq_some_mem hl) (v, w) hm

/-- Along a chain, tentative distances are monotone: every intermediate
target's distance is at most the endpoint's distance (weights nonneg). -/
theorem ChainD.dist_le {g : AdjList} {dist : ℕ → WithTop ℤ} {prev : ℕ → Option ℕ}
    (hnn : AdjNonneg g) {a b : ℕ} {steps : List AdjEdge}
    (h : ChainD g dist prev a steps b) :
    ∀ y ∈ stepTargets steps, dist y ≤ dist b := by
  induction h with
  | nil => simp [stepTargets]
  | @cons u v w steps hc e hp hle htop ih =>
    have hw : (0 : ℤ) ≤ w := adjMem_nonneg hnn e
    have huv : dist u ≤ dist v := by
      refine le_trans ?_ hle
      exact le_add_of_nonneg_right (by exact_mod_cast hw)
    intro y hy
    simp only [stepTargets, List.map_append, List.mem_append] at hy
    rcases hy with hy | hy
    · exact le_trans (ih y hy) huv
    · simp at hy
      rcases hy with ⟨rfl, -⟩
      exact le_refl _

/-- A chain survives an update of `dist`/`prev` at a vertex `v` that is not
one of its targets, provided `dist v` only decreases (and stays finite if
`v` is the anchor). -/
theorem ChainD.update {g : AdjList} {dist dist' : ℕ → WithTop ℤ}
    {prev prev' : ℕ → Option ℕ} {v a b : ℕ} {steps : List AdjEdge}
    (h : ChainD g dist prev a steps b) (hvt : v ∉ stepTargets steps)
    (hdist : ∀ y, y ≠ v → dist' y = dist y) (hprev : ∀ y, y ≠ v → prev' y = prev y)
    (hle : dist' v ≤ dist v) (htop : a = v → dist' v ≠ ⊤) :
    ChainD g dist' prev' a steps b := by
  induction h with
  | nil => exact ChainD.nil _
  | @cons u y w steps hc e hp hley htopy ih =>
    have hyv : y ≠ v := by
      intro heq
      exact hvt (by simp [stepTargets, heq])
    have hvs : v ∉ stepTargets steps := by
      intro hmem
      exact hvt (by simp [stepTargets] at hmem ⊢; exact Or.inl hmem)
    have hrec := ih hvs
    by_cases huv : u = v
    · subst huv
      have hua : a = u := by
        rcases hc.end_mem with h' | h'
        · exact h'.symm
        · exact absurd h' hvs
      refine ChainD.cons hrec e ?_ ?_ ?_
      · rw [hprev y hyv]; exact hp
      · calc dist' u + (w : WithTop ℤ) ≤ dist u + (w : WithTop ℤ) := add_le_add_right hle _
          _ ≤ dist y := hley
          _ = dist' y := (hdist y hyv).symm
      · exact htop hua
    · refine ChainD.cons hrec e ?_ ?_ ?_
      · rw [hprev y hyv]; exact hp
      · rw [hdist u huv, hdist y hyv]; exact hley
      · rw [hdist u huv]; exact htopy

/-- Extract the suffix of a chain after the last visit to `v`. -/
theorem ChainD.extract {g : AdjList} {dist : ℕ → WithTop ℤ} {prev : ℕ → Option ℕ}
    {v a b : ℕ} {steps : List AdjEdge} (h : ChainD g dist prev a steps b)
    (hv : v ∈ stepTargets steps) :
    ∃ post, ChainD g dist prev v post b ∧ v ∉ stepTargets post := by
  induction h with
  | nil => simp [stepTargets] at hv
  | @cons u y w steps hc e hp hley htopy ih =>
    by_cases hyv : y = v
    · subst hyv
      exact ⟨[], ChainD.nil _, by simp [stepTargets]⟩
    · have hvs : v ∈ stepTargets steps := by
        simp [stepTargets] at hv ⊢
        rcases hv with hv | hv
        · exact hv
        · exact absurd hv.symm hyv
      obtain ⟨post, hpost, hnot⟩ := ih hvs
      refine ⟨post ++ [(y, w)], ChainD.cons hpost e hp hley htopy, ?_⟩
      simp [stepTargets] at hnot ⊢
      exact ⟨hnot, fun h' => hyv h'.symm⟩

/-- Vertices listed in the priority queue. -/
def queueElems (st : DState) : List ℕ := st.queue.map Prod.fst

/-- Queue-independent part of the Dijkstra loop invariant. -/
structure DCore (g : AdjList) (s : ℕ) (dist : ℕ → WithTop ℤ) (prev : ℕ → Option ℕ) : Prop where
  nonnegD : ∀ v, 0 ≤ dist v
  sZero : dist s = 0
  prevS : prev s = none
  reach : ∀ v, dist v ≠ ⊤ → ∃ steps, ChainD g dist prev s steps v

/-- Pending-work invariant: every edge is either already relaxed, or its
source is still in the queue, or it is one of the not-yet-processed edges
of the vertex `u` currently being expanded. -/
def QF (g : AdjList) (u : ℕ) (st : DState) (rem : List AdjEdge) : Prop :=
  ∀ x y w, adjMem g x y w →
    st.dist y ≤ st.dist x + (w : WithTop ℤ) ∨ x ∈ queueElems st ∨ (x = u ∧ (y, w) ∈ rem)

theorem ChainD.append {g : AdjList} {dist : ℕ → WithTop ℤ} {prev : ℕ → Option ℕ}
    {a b c : ℕ} {p q : List AdjEdge} (h1 : ChainD g dist prev a p b)
    (h2 : ChainD g dist prev b q c) : ChainD g dist prev a (p ++ q) c := by
  induction h2 with
  | nil => simpa using h1
  | cons hc e hp hle htop ih => rw [← List.append_assoc]; exact ChainD.cons ih e hp hle htop


theorem mem_map_fst_jsSort {q : List (ℕ × WithTop ℤ)} {v x : ℕ} {alt : WithTop ℤ} :
    x ∈ (jsSort pqLe (q ++ [(v, alt)])).map Prod.fst ↔ x ∈ q.map Prod.fst ∨ x = v := by
  constructor
  · intro h
    obtain ⟨e, he, hfst⟩ := List.mem_map.mp h
    have := (jsSort_perm pqLe (q ++ [(v, alt)])).mem_iff.mp he
    simp only [List.mem_append, List.mem_singleton] at this
    rcases this with h' | h'
    · exact Or.inl (List.mem_map.mpr ⟨e, h', hfst⟩)
    · subst h'
      exact Or.inr hfst.symm
  · intro h
    rcases h with h | h
    · obtain ⟨e, he, hfst⟩ := List.mem_map.mp h
      exact List.mem_map.mpr ⟨e, (jsSort_perm pqLe _).mem_iff.mpr (by simp [he]), hfst⟩
    · subst h
      exact List.mem_map.mpr ⟨(x, alt), (jsSort_perm pqLe _).mem_iff.mpr (by simp), rfl⟩

/-- One relaxation step preserves the core invariant and advances the
pending-work invariant. -/
theorem relax_step {g : AdjList} {s u : ℕ} (hnn : AdjNonneg g) {st : DState}
    {v : ℕ} {w₀ : ℤ} {rem : List AdjEdge}
    (hcore : DCore g s st.dist st.prev) (hqf : QF g u st ((v, w₀) :: rem))
    (he : adjMem g u v w₀) :
    DCore g s (relaxEdge u st (v, w₀)).dist (relaxEdge u st (v, w₀)).prev ∧
      QF g u (relaxEdge u st (v, w₀)) rem := by
  by_cases halt : st.dist u + ((w₀ : ℤ) : WithTop ℤ) < st.dist v
  case neg =>
    have hst : relaxEdge u st (v, w₀) = st := by
      unfold relaxEdge
      simp only [if_neg halt]
    rw [hst]
    refine ⟨hcore, ?_⟩
    intro x y w hxy
    rcases hqf x y w hxy with hrel | hq | ⟨rfl, hmem⟩
    · exact Or.inl hrel
    · exact Or.inr (Or.inl hq)
    · rcases List.mem_cons.mp hmem with heq | hmem'
      · have h1 : y = v := congrArg Prod.fst heq
        have h2 : w = w₀ := congrArg Prod.snd heq
        subst h1; subst h2
        exact Or.inl (not_lt.mp halt)
      · exact Or.inr (Or.inr ⟨rfl, hmem'⟩)
  case pos =>
    set alt := st.dist u + ((w₀ : ℤ) : WithTop ℤ) with halt_def
    have hstate : relaxEdge u st (v, w₀) =
        { dist := fun z => if z = v then alt else st.dist z
          prev := fun z => if z = v then some u else st.prev z
          queue := jsSort pqLe (st.queue ++ [(v, alt)]) } := by
      unfold relaxEdge
      simp only [if_pos halt]
    have haltne : alt ≠ ⊤ := ne_top_of_lt halt
    have htopu : st.dist u ≠ ⊤ := by
      intro h
      apply haltne
      rw [halt_def, h, top_add]
    have hw0 : (0 : ℤ) ≤ w₀ := adjMem_nonneg hnn he
    have hwc : (0 : WithTop ℤ) ≤ ((w₀ : ℤ) : WithTop ℤ) := by exact_mod_cast hw0
    have hualt : st.dist u ≤ alt := le_add_of_nonneg_right hwc
    have haltnn : (0 : WithTop ℤ) ≤ alt := le_trans (hcore.nonnegD u) hualt
    have hvu : v ≠ u := by
      intro h
      rw [h] at halt
      exact absurd halt (not_lt.mpr hualt)
    have hvs : v ≠ s := by
      intro h
      rw [h, hcore.sZero] at halt
      exact absurd halt (not_lt.mpr haltnn)
    set dist' : ℕ → WithTop ℤ := fun z => if z = v then alt else st.dist z with hdist'
    set prev' : ℕ → Option ℕ := fun z => if z = v then some u else st.prev z with hprev'
    have hd_other : ∀ y, y ≠ v → dist' y = st.dist y := by
      intro y hy; simp [hdist', hy]
    have hp_other : ∀ y, y ≠ v → prev' y = st.prev y := by
      intro y hy; simp [hprev', hy]
    have hd_v : dist' v = alt := by simp [hdist']
    have hp_v : prev' v = some u := by simp [hprev']
    have hd_le : ∀ y, dist' y ≤ st.dist y := by
      intro y
      by_cases hy : y = v
      · subst hy; rw [hd_v]; exact le_of_lt halt
      · rw [hd_other y hy]
    have chainV : ∃ steps, ChainD g dist' prev' s steps v := by
      obtain ⟨stepsU, hU⟩ := hcore.reach u htopu
      have hvnot : v ∉ stepTargets stepsU := by
        intro hmem
        have := hU.dist_le hnn v hmem
        exact absurd halt (not_lt.mpr (le_trans this hualt))
      have hU' : ChainD g dist' prev' s stepsU u :=
        hU.update hvnot hd_other hp_other (hd_le v) (fun h => absurd h.symm hvs)
      refine ⟨stepsU ++ [(v, w₀)], hU'.cons he hp_v ?_ ?_⟩
      · rw [hd_other u (fun h => hvu h.symm), hd_v]
      · rw [hd_other u (fun h => hvu h.symm)]; exact htopu
    have hcore' : DCore g s dist' prev' := by
      constructor
      · intro z
        by_cases hz : z = v
        · subst hz; rw [hd_v]; exact haltnn
        · rw [hd_other z hz]; exact hcore.nonnegD z
      · rw [hd_other s (fun h => hvs h.symm)]; exact hcore.sZero
      · rw [hp_other s (fun h => hvs h.symm)]; exact hcore.prevS
      · intro z hz
        by_cases hzv : z = v
        · subst hzv; exact chainV
        · rw [hd_other z hzv] at hz
          obtain ⟨steps, hchain⟩ := hcore.reach z hz
          by_cases hvt : v ∈ stepTargets steps
          · obtain ⟨post, hpost, hnot⟩ := hchain.extract hvt
            obtain ⟨stepsV, hV⟩ := chainV
            have hpost' : ChainD g dist' prev' v post z :=
              hpost.update hnot hd_other hp_other (hd_le v)
                (fun _ => by rw [hd_v]; exact haltne)
            exact ⟨stepsV ++ post, hV.append hpost'⟩
          · exact ⟨steps, hchain.update hvt hd_other hp_other (hd_le v)
              (fun h => absurd h.symm hvs)⟩
    rw [hstate]
    refine ⟨hcore', ?_⟩
    intro x y w hxy
    have hqmem : ∀ b : ℕ,
        b ∈ queueElems (DState.mk dist' prev' (jsSort pqLe (st.queue ++ [(v, alt)]))) ↔
          b ∈ queueElems st ∨ b = v := by
      intro b
      show b ∈ (jsSort pqLe (st.queue ++ [(v, alt)])).map Prod.fst ↔ _
      exact mem_map_fst_jsSort
    rcases hqf x y w hxy with hrel | hq | ⟨hxu, hmem⟩
    · by_cases hxv : x = v
      · right; left
        rw [hxv]
        exact (hqmem v).mpr (Or.inr rfl)
      · left
        show dist' y ≤ dist' x + ((w : ℤ) : WithTop ℤ)
        rw [hd_other x hxv]
        exact le_trans (hd_le y) hrel
    · exact Or.inr (Or.inl ((hqmem x).mpr (Or.inl hq)))
    · rcases List.mem_cons.mp hmem with heq | hmem'
      · have h1 : y = v := congrArg Prod.fst heq
        have h2 : w = w₀ := congrArg Prod.snd heq
        left
        show dist' y ≤ dist' x + ((w : ℤ) : WithTop ℤ)
        rw [h1, h2, hxu, hd_v, hd_other u (fun h => hvu h.symm)]
      · exact Or.inr (Or.inr ⟨hxu, hmem'⟩)

theorem fold_relax {g : AdjList} {s u : ℕ} (hnn : AdjNonneg g) {edgesAll : List AdjEdge}
    (hget : adjGet g u = some edgesAll) :
    ∀ (l : List AdjEdge) (st : DState), (∀ e ∈ l, e ∈ edgesAll) →
      DCore g s st.dist st.prev → QF g u st l →
      DCore g s (l.foldl (relaxEdge u) st).dist (l.foldl (relaxEdge u) st).prev ∧
        QF g u (l.foldl (relaxEdge u) st) [] := by
  intro l
  induction l with
  | nil =>
    intro st _ hc hq
    exact ⟨hc, hq⟩
  | cons e t ih =>
    intro st hsub hc hq
    obtain ⟨v, w⟩ := e
    have he : adjMem g u v w := ⟨edgesAll, hget, hsub (v, w) (by simp)⟩
    obtain ⟨hc', hq'⟩ := relax_step hnn hc hq he
    simpa using ih (relaxEdge u st (v, w)) (fun e' he' => hsub e' (by simp [he'])) hc' hq'

theorem dloop_inv {g : AdjList} {s : ℕ} (hnn : AdjNonneg g) :
    ∀ (fuel : ℕ) (st st' : DState),
      DCore g s st.dist st.prev →
      (∀ x y w, adjMem g x y w →
        st.dist y ≤ st.dist x + ((w : ℤ) : WithTop ℤ) ∨ x ∈ queueElems st) →
      dijkstraLoop g fuel st = .done st' →
      DCore g s st'.dist st'.prev ∧
        (∀ x y w, adjMem g x y w → st'.dist y ≤ st'.dist x + ((w : ℤ) : WithTop ℤ)) := by
  intro fuel
  induction fuel with
  | zero =>
    intro st st' hc hq hrun
    cases hq0 : st.queue with
    | nil =>
      have hst : st' = st := by
        unfold dijkstraLoop at hrun
        rw [hq0] at hrun
        cases hrun
        rfl
      subst hst
      refine ⟨hc, ?_⟩
      intro x y w hxy
      rcases hq x y w hxy with h | h
      · exact h
      · rw [queueElems, hq0] at h
        simp at h
    | cons hd tl =>
      unfold dijkstraLoop at hrun
      rw [hq0] at hrun
      cases hrun
  | succ fuel ih =>
    intro st st' hc hq hrun
    cases hq0 : st.queue with
    | nil =>
      have hst : st' = st := by
        unfold dijkstraLoop at hrun
        rw [hq0] at hrun
        cases hrun
        rfl
      subst hst
      refine ⟨hc, ?_⟩
      intro x y w hxy
      rcases hq x y w hxy with h | h
      · exact h
      · rw [queueElems, hq0] at h
        simp at h
    | cons hd rest =>
      obtain ⟨u, pri⟩ := hd
      unfold dijkstraLoop at hrun
      rw [hq0] at hrun
      simp only at hrun
      cases hget : adjGet g u with
      | none =>
        rw [hget] at hrun
        cases hrun
      | some edges =>
        rw [hget] at hrun
        have hc1 : DCore g s (DState.mk st.dist st.prev rest).dist
            (DState.mk st.dist st.prev rest).prev := hc
        have hq1 : QF g u (DState.mk st.dist st.prev rest) edges := by
          intro x y w hxy
          rcases hq x y w hxy with h | h
          · exact Or.inl h
          · rw [queueElems, hq0] at h
            simp only [List.map_cons, List.mem_cons] at h
            rcases h with h | h
            · right; right
              refine ⟨h, ?_⟩
              obtain ⟨l, hl, hm⟩ := hxy
              rw [h] at hl
              rw [hget] at hl
              cases hl
              exact hm
            · exact Or.inr (Or.inl h)
        have hsub : ∀ e ∈ edges, e ∈ edges := fun e he => he
        obtain ⟨hc2, hq2⟩ := fold_relax hnn hget edges (DState.mk st.dist st.prev rest) hsub hc1 hq1
        have hq2' : ∀ x y w, adjMem g x y w →
            (edges.foldl (relaxEdge u) (DState.mk st.dist st.prev rest)).dist y ≤
              (edges.foldl (relaxEdge u) (DState.mk st.dist st.prev rest)).dist x +
                ((w : ℤ) : WithTop ℤ) ∨
              x ∈ queueElems (edges.foldl (relaxEdge u) (DState.mk st.dist st.prev rest)) := by
          intro x y w hxy
          rcases hq2 x y w hxy with h | h | h
          · exact Or.inl h
          · exact Or.inr h
          · simp at h
        have hrun' : dijkstraLoop g fuel
            (edges.foldl (relaxEdge u) (DState.mk st.dist st.prev rest)) = .done st' := by
          have : { st with queue := rest } = DState.mk st.dist st.prev rest := rfl
          rw [this] at hrun
          exact hrun
        exact ih _ st' hc2 hq2' hrun'

theorem walkWeight_append (p : List AdjEdge) (v : ℕ) (w : ℤ) :
    walkWeight (p ++ [(v, w)]) = walkWeight p + w := by
  simp [walkWeight]

/-- At a relaxation fixed point with `dist s = 0`, `dist v` is a lower
bound on the weight of every walk from `s` to `v`. -/
theorem walk_upper {g : AdjList} {d : ℕ → WithTop ℤ}
    (hfix : ∀ u v w, adjMem g u v w → d v ≤ d u + ((w : ℤ) : WithTop ℤ))
    {s : ℕ} (hs : d s = 0) :
    ∀ {v : ℕ} {steps : List AdjEdge}, WalkSeg (adjMem g) s steps v →
      d v ≤ ((walkWeight steps : ℤ) : WithTop ℤ) := by
  intro v steps hw
  induction hw with
  | nil =>
    rw [hs]
    simp [walkWeight]
  | @cons u v w steps hwseg e ih =>
    calc d v ≤ d u + ((w : ℤ) : WithTop ℤ) := hfix u v w e
      _ ≤ ((walkWeight steps : ℤ) : WithTop ℤ) + ((w : ℤ) : WithTop ℤ) := add_le_add_right ih _
      _ = ((walkWeight (steps ++ [(v, w)]) : ℤ) : WithTop ℤ) := by
          rw [walkWeight_append]
          push_cast
          ring_nf

/-- At a relaxation fixed point, the weight of an invariant chain from `s`
equals the final distance of its endpoint. -/
theorem chain_weight {g : AdjList} {d : ℕ → WithTop ℤ} {p : ℕ → Option ℕ}
    (hfix : ∀ u v w, adjMem g u v w → d v ≤ d u + ((w : ℤ) : WithTop ℤ))
    {s : ℕ} (hs : d s = 0) :
    ∀ {v : ℕ} {steps : List AdjEdge}, ChainD g d p s steps v →
      ((walkWeight steps : ℤ) : WithTop ℤ) = d v := by
  intro v steps hch
  induction hch with
  | nil =>
    rw [hs]
    simp [walkWeight]
  | @cons u v w steps hc e hp hle htop ih =>
    have hvd : d v = d u + ((w : ℤ) : WithTop ℤ) := le_antisymm (hfix u v w e) hle
    rw [walkWeight_append, hvd, ← ih]
    push_cast
    ring_nf

/-- C1 preliminaries: the invariant holds for `dijkstra`'s initial state. -/
theorem dinit_core (g : AdjList) (s : ℕ) :
    DCore g s (fun v => if v = s then (0 : WithTop ℤ) else ⊤) (fun _ => none) := by
  constructor
  · intro v
    by_cases hv : v = s <;> simp [hv]
  · simp
  · rfl
  · intro v hv
    by_cases hvs : v = s
    · subst hvs
      exact ⟨[], ChainD.nil v⟩
    · simp [hvs] at hv

/-- C1: on a well-formed, non-negatively weighted adjacency list, every
distance returned by `dijkstra` is a lower bound on the weight of every
walk from `start`, every finite distance is attained by the walk obtained
by following `previous[]` back from the vertex, unreachable vertices get
`Infinity`, and `previous[start]` is `null`.  Together the first two parts
say `distance[v]` is exactly the shortest-path weight from `start` to `v`. -/
theorem dijkstra_shortest (g : AdjList) (n s fuel : ℕ)
    (d : ℕ → WithTop ℤ) (p : ℕ → Option ℕ)
    (hwf : WFAdj g n) (hnn : AdjNonneg g)
    (hrun : dijkstra g s fuel = .done (d, p)) :
    (∀ v steps, WalkSeg (adjMem g) s steps v → d v ≤ ((walkWeight steps : ℤ) : WithTop ℤ)) ∧
    (∀ v, d v ≠ ⊤ → ∃ steps, WalkSeg (adjMem g) s steps v ∧ PrevChain p s steps v ∧
      ((walkWeight steps : ℤ) : WithTop ℤ) = d v) ∧
    (∀ v, (¬ ∃ steps, WalkSeg (adjMem g) s steps v) → d v = ⊤) ∧
    p s = none := by
  unfold dijkstra at hrun
  simp only at hrun
  set st0 : DState :=
    { dist := fun v => if v = s then (0 : WithTop ℤ) else ⊤
      prev := fun _ => none
      queue := [(s, (0 : WithTop ℤ))] } with hst0
  cases hloop : dijkstraLoop g fuel st0 with
  | err => rw [hloop] at hrun; cases hrun
  | fuelOut => rw [hloop] at hrun; cases hrun
  | done st =>
    rw [hloop] at hrun
    cases hrun
    have hq0 : ∀ x y w, adjMem g x y w →
        st0.dist y ≤ st0.dist x + ((w : ℤ) : WithTop ℤ) ∨ x ∈ queueElems st0 := by
      intro x y w hxy
      by_cases hx : x = s
      · right
        rw [queueElems, hst0, hx]
        simp
      · left
        show (if y = s then (0 : WithTop ℤ) else ⊤) ≤ (if x = s then (0 : WithTop ℤ) else ⊤) + _
        rw [if_neg hx, top_add]
        exact le_top
    obtain ⟨hcore, hfix⟩ := dloop_inv hnn fuel st0 st (dinit_core g s) hq0 hloop
    refine ⟨?_, ?_, ?_, hcore.prevS⟩
    · intro v steps hw
      exact walk_upper hfix hcore.sZero hw
    · intro v hv
      obtain ⟨steps, hchain⟩ := hcore.reach v hv
      exact ⟨steps, hchain.toWalk, hchain.toPrevChain, chain_weight hfix hcore.sZero hchain⟩
    · intro v hv
      by_contra hne
      obtain ⟨steps, hchain⟩ := hcore.reach v hne
      exact hv ⟨steps, hchain.toWalk⟩

/-- The spec's concrete scenario graph: vertices `{0,1,2,3}`, undirected
edges `(0,1,1), (1,2,2), (0,2,4), (2,3,1)`, in insertion order. -/
def graphC1 : AdjList :=
  [(0, [(1, 1), (2, 4)]), (1, [(0, 1), (2, 2)]), (2, [(1, 2), (0, 4), (3, 1)]), (3, [(2, 1)])]

/-- `graphC1` is exactly what the JS constructors build. -/
theorem graphC1_build :
    (addEdgeToList (createAdjacencyList 4) 0 1 1).bind (fun g =>
      (addEdgeToList g 1 2 2).bind (fun g =>
        (addEdgeToList g 0 2 4).bind (fun g =>
          addEdgeToList g 2 3 1))) = some graphC1 := by decide

/-- Distance table lookup on a finished run, for concrete evaluation. -/
def distAt (r : RunRes ((ℕ → WithTop ℤ) × (ℕ → Option ℕ))) (v : ℕ) : Option (WithTop ℤ) :=
  match r with
  | .done dp => some (dp.1 v)
  | _ => none

/-- Predecessor lookup on a finished run, for concrete evaluation. -/
def prevAt (r : RunRes ((ℕ → WithTop ℤ) × (ℕ → Option ℕ))) (v : ℕ) : Option (Option ℕ) :=
  match r with
  | .done dp => some (dp.2 v)
  | _ => none

/-- C1 witness: on the spec's concrete graph, `dijkstra` finishes and the
theorem applies; the distances are `{0:0, 1:1, 2:3, 3:4}` and following
`previous[]` back from the reachable vertex `3` yields a walk whose edge
weights sum to `distance[3]`. -/
theorem dijkstra_shortest_witness :
    WFAdj graphC1 4 ∧ AdjNonneg graphC1 ∧
    ∃ d p, dijkstra graphC1 0 32 = .done (d, p) ∧
      d 0 = ((0 : ℤ) : WithTop ℤ) ∧ d 1 = ((1 : ℤ) : WithTop ℤ) ∧
      d 2 = ((3 : ℤ) : WithTop ℤ) ∧ d 3 = ((4 : ℤ) : WithTop ℤ) ∧
      (∀ v steps, WalkSeg (adjMem graphC1) 0 steps v →
        d v ≤ ((walkWeight steps : ℤ) : WithTop ℤ)) ∧
      (∃ steps, WalkSeg (adjMem graphC1) 0 steps 3 ∧ PrevChain p 0 steps 3 ∧
        ((walkWeight steps : ℤ) : WithTop ℤ) = d 3) ∧
      p 0 = none := by
  have hdone : (dijkstra graphC1 0 32).isDone = true := by decide
  obtain ⟨r, hr⟩ := RunRes.isDone_iff.mp hdone
  obtain ⟨d, p⟩ := r
  have hmain := dijkstra_shortest graphC1 4 0 32 d p
    (by unfold WFAdj; decide) (by unfold AdjNonneg; decide) hr
  have hd0 : d 0 = ((0 : ℤ) : WithTop ℤ) := by
    have : distAt (dijkstra graphC1 0 32) 0 = some ((0 : ℤ) : WithTop ℤ) := by decide
    rw [hr] at this
    exact Option.some.inj this
  have hd1 : d 1 = ((1 : ℤ) : WithTop ℤ) := by
    have : distAt (dijkstra graphC1 0 32) 1 = some ((1 : ℤ) : WithTop ℤ) := by decide
    rw [hr] at this
    exact Option.some.inj this
  have hd2 : d 2 = ((3 : ℤ) : WithTop ℤ) := by
    have : distAt (dijkstra graphC1 0 32) 2 = some ((3 : ℤ) : WithTop ℤ) := by decide
    rw [hr] at this
    exact Option.some.inj this
  have hd3 : d 3 = ((4 : ℤ) : WithTop ℤ) := by
    have : distAt (dijkstra graphC1 0 32) 3 = some ((4 : ℤ) : WithTop ℤ) := by decide
    rw [hr] at this
    exact Option.some.inj this
  refine ⟨by unfold WFAdj; decide, by unfold AdjNonneg; decide,
    d, p, hr, hd0, hd1, hd2, hd3, hmain.1, ?_, hmain.2.2.2⟩
  refine hmain.2.1 3 ?_
  rw [hd3]
  decide

/-- `hasEulerianPath(adjList)`: counts vertices of odd degree via
`adjList.forEach`, then tests `odd === 0 || odd === 2`. -/
def hasEulerianPath (g : AdjList) : Bool :=
  let odd := g.foldl (fun c p => if p.2.length % 2 ≠ 0 then c + 1 else c) 0
  odd == 0 || odd == 2

/-- `hasEulerianCircuit(adjList)`: every vertex has even degree. -/
def hasEulerianCircuit (g : AdjList) : Bool :=
  g.all (fun p => p.2.length % 2 == 0)

/-- Number of odd-degree vertices of the adjacency list. -/
def oddDegreeCount (g : AdjList) : ℕ :=
  (g.filter (fun p => p.2.length % 2 ≠ 0)).length

theorem euler_fold_count (g : AdjList) :
    g.foldl (fun c p => if p.2.length % 2 ≠ 0 then c + 1 else c) 0 = oddDegreeCount g := by
  suffices h : ∀ k, g.foldl (fun c p => if p.2.length % 2 ≠ 0 then c + 1 else c) k =
      k + oddDegreeCount g by
    simpa using h 0
  induction g with
  | nil => intro k; simp [oddDegreeCount]
  | cons p t ih =>
    intro k
    by_cases hp : p.2.length % 2 ≠ 0
    · have hfil : oddDegreeCount (p :: t) = oddDegreeCount t + 1 := by
        unfold oddDegreeCount
        rw [List.filter_cons, if_pos (by simpa using hp)]
        simp
      rw [List.foldl_cons, if_pos hp, ih, hfil]
      omega
    · have hfil : oddDegreeCount (p :: t) = oddDegreeCount t := by
        unfold oddDegreeCount
        rw [List.filter_cons, if_neg (by simpa using hp)]
      rw [List.foldl_cons, if_neg hp, ih, hfil]

/-- C9: `hasEulerianCircuit` is true iff every vertex has even degree;
`hasEulerianPath` is true iff the number of odd-degree vertices is 0 or 2;
consequently a graph with an Eulerian circuit also has an Eulerian path. -/
theorem eulerian_checks (g : AdjList) :
    (hasEulerianCircuit g = true ↔ ∀ p ∈ g, p.2.length % 2 = 0) ∧
    (hasEulerianPath g = true ↔ (oddDegreeCount g = 0 ∨ oddDegreeCount g = 2)) ∧
    (hasEulerianCircuit g = true → hasEulerianPath g = true) := by
  have hcirc : hasEulerianCircuit g = true ↔ ∀ p ∈ g, p.2.length % 2 = 0 := by
    unfold hasEulerianCircuit
    rw [List.all_eq_true]
    constructor
    · intro h p hp
      have := h p hp
      simpa using this
    · intro h p hp
      simpa using h p hp
  have hpath : hasEulerianPath g = true ↔
      (oddDegreeCount g = 0 ∨ oddDegreeCount g = 2) := by
    unfold hasEulerianPath
    rw [euler_fold_count]
    simp
  refine ⟨hcirc, hpath, ?_⟩
  intro h
  rw [hpath]
  left
  rw [hcirc] at h
  unfold oddDegreeCount
  rw [List.length_eq_zero, List.filter_eq_nil_iff]
  intro p hp
  simpa using h p hp

/-- The triangle graph on `{0,1,2}` (each vertex of degree 2) as built by
the JS constructors. -/
def triangleG : AdjList :=
  [(0, [(1, 1), (2, 1)]), (1, [(0, 1), (2, 1)]), (2, [(0, 1), (1, 1)])]

/-- C9 witness: the implication is applied on the triangle graph, where
both checks return `true` and there are no odd-degree vertices. -/
theorem eulerian_checks_witness :
    hasEulerianCircuit triangleG = true ∧ hasEulerianPath triangleG = true ∧
      oddDegreeCount triangleG = 0 := by
  refine ⟨by decide, (eulerian_checks triangleG).2.2 (by decide), by decide⟩

/-- C10: `addEdgeToMatrix` is not atomic on error.  With `u` in range and
`v` out of range the first assignment extends row `u` (placing the weight
at column `v`), and only the second assignment throws: the call reports an
error but the matrix differs from its pre-call state. -/
theorem addEdgeToMatrix_partial (n u v : ℕ) (w : ℤ) (m : JsMatrix)
    (hm : m.length = n) (hrows : ∀ r ∈ m, r.length = n) (hu : u < n) (hv : n ≤ v) :
    (addEdgeToMatrix m u v w).2 = true ∧
    (addEdgeToMatrix m u v w).1 ≠ m ∧
    ∃ row, m[u]? = some row ∧
      (addEdgeToMatrix m u v w).1[u]? = some (jsArraySet row v w) ∧
      (jsArraySet row v w)[v]? = some (some w) ∧
      (jsArraySet row v w).length = v + 1 := by
  have hul : u < m.length := by rw [hm]; exact hu
  obtain ⟨row, hrow⟩ : ∃ row, m[u]? = some row := by
    exact ⟨m[u], List.getElem?_eq_getElem hul⟩
  have hrowlen : row.length = n := by
    refine hrows row ?_
    obtain ⟨h, hg⟩ := List.getElem?_eq_some.mp hrow
    rw [← hg]
    exact List.getElem_mem h
  have hnotlt : ¬ v < row.length := by
    rw [hrowlen]; omega
  have hset : jsArraySet row v w = row ++ List.replicate (v - row.length) none ++ [some w] := by
    unfold jsArraySet
    rw [if_neg hnotlt]
  have hsetlen : (jsArraySet row v w).length = v + 1 := by
    rw [hset]
    simp
    omega
  have hm1len : (m.set u (jsArraySet row v w)).length = n := by
    rw [List.length_set, hm]
  have hm1v : (m.set u (jsArraySet row v w))[v]? = none := by
    rw [List.getElem?_eq_none]
    rw [hm1len]
    exact hv
  have hstep : addEdgeToMatrix m u v w = (m.set u (jsArraySet row v w), true) := by
    unfold addEdgeToMatrix
    rw [hrow]
    simp only
    rw [hm1v]
  rw [hstep]
  have hgetu : (m.set u (jsArraySet row v w))[u]? = some (jsArraySet row v w) := by
    rw [List.getElem?_set_self']
    rw [hrow]
    rfl
  refine ⟨rfl, ?_, row, hrow, hgetu, ?_, hsetlen⟩
  · intro heq
    have : m[u]? = some (jsArraySet row v w) := by
      rw [← heq] at hrow ⊢
      exact hgetu
    rw [hrow] at this
    have hlen := congrArg (fun o => (Option.map List.length o)) this
    simp [hrowlen, hsetlen] at hlen
    omega
  · rw [hset]
    have hlen2 : (row ++ List.replicate (v - row.length) none).length = v := by
      simp
      omega
    have hc := List.getElem?_concat_length (row ++ List.replicate (v - row.length) none) (some w)
    rw [hlen2] at hc
    exact hc

/-- C10 witness: concrete instance with `n = 2`, `u = 0`, `v = 2` on the
fresh `2 × 2` matrix: the call errors yet row `0` now has length `3` with
the weight stored at column `2`. -/
theorem addEdgeToMatrix_partial_witness :
    (createAdjacencyMatrix 2).length = 2 ∧
    (addEdgeToMatrix (createAdjacencyMatrix 2) 0 2 7).2 = true ∧
    (addEdgeToMatrix (createAdjacencyMatrix 2) 0 2 7).1 ≠ createAdjacencyMatrix 2 ∧
    ∃ row, (createAdjacencyMatrix 2)[0]? = some row ∧
      (addEdgeToMatrix (createAdjacencyMatrix 2) 0 2 7).1[0]? = some (jsArraySet row 2 7) ∧
      (jsArraySet row 2 7)[2]? = some (some 7) ∧
      (jsArraySet row 2 7).length = 3 := by
  have h := addEdgeToMatrix_partial 2 0 2 7 (createAdjacencyMatrix 2)
    (by decide) (by decide) (by decide) (by decide)
  exact ⟨by decide, h.1, h.2.1, h.2.2⟩

/-- `find(u)` with path compression, as state passing on the parent map;
`fuel` bounds the recursion depth (the JS recursion terminates because the
parent map is a forest; theorems establish that `n + 1` fuel suffices). -/
def findF : ℕ → (ℕ → ℕ) → ℕ → ℕ × (ℕ → ℕ)
  | 0, p, u => (p u, p)
  | fuel + 1, p, u =>
    if p u = u then (u, p)
    else
      let r := findF fuel p (p u)
      (r.1, fun x => if x = u then r.1 else r.2 x)

/-- `union(u, v)`: two `find`s (with their compressions), then link by
rank, incrementing the surviving root's rank on ties. -/
def unionF (nf : ℕ) (p : ℕ → ℕ) (rk : ℕ → ℕ) (u v : ℕ) : (ℕ → ℕ) × (ℕ → ℕ) :=
  let fu := findF nf p u
  let fv := findF nf fu.2 v
  let p2 := fv.2
  if fu.1 ≠ fv.1 then
    if rk fu.1 > rk fv.1 then (fun x => if x = fv.1 then fu.1 else p2 x, rk)
    else if rk fu.1 < rk fv.1 then (fun x => if x = fu.1 then fv.1 else p2 x, rk)
    else (fun x => if x = fv.1 then fu.1 else p2 x,
      fun x => if x = fu.1 then rk x + 1 else rk x)
  else (p2, rk)

/-- Per-edge body of `kruskal`'s `forEach`: two `find`s for the test, then
(on acceptance) `union` — which performs two further `find`s — and push. -/
def kruskalStep (nf : ℕ) (st : (ℕ → ℕ) × (ℕ → ℕ) × List EdgeT) (e : EdgeT) :
    (ℕ → ℕ) × (ℕ → ℕ) × List EdgeT :=
  let fu := findF nf st.1 e.1
  let fv := findF nf fu.2 e.2.1
  if fu.1 ≠ fv.1 then
    let pr := unionF nf fv.2 st.2.1 e.1 e.2.1
    (pr.1, pr.2, st.2.2 ++ [e])
  else (fv.2, st.2.1, st.2.2)

/-- Edge comparator `(a, b) => a[2] - b[2]`. -/
def edgeLe (a b : EdgeT) : Bool := decide (a.2.2 ≤ b.2.2)

/-- `kruskal(edges, vertices)`: sorts the caller's edge array **in place**
(stable sort ascending by weight), then runs union-find greedily.  Returns
the mst list together with the final state of the input array. -/
def kruskal (E : List EdgeT) (n : ℕ) : List EdgeT × List EdgeT :=
  let S := jsSort edgeLe E
  let res := S.foldl (kruskalStep (n + 1)) (fun x => x, fun _ => 0, [])
  (res.2.2, S)

/-- C4 counterexample: `kruskal` mutates its input — after the call the
caller's edge array `[[0,1,5],[1,2,1]]` has become `[[1,2,1],[0,1,5]]`. -/
theorem kruskal_mutates_input :
    (kruskal [(0, 1, 5), (1, 2, 1)] 3).2 ≠ [(0, 1, 5), (1, 2, 1)] ∧
    (kruskal [(0, 1, 5), (1, 2, 1)] 3).2 = [(1, 2, 1), (0, 1, 5)] := by
  constructor
  · decide
  · decide

/-- C4 amended: the only mutation any algorithm performs on its input is
`kruskal`'s in-place sort: after the call the input edge array holds
exactly the original entries, permuted into ascending order by weight. -/
theorem kruskal_permutes_input (E : List EdgeT) (n : ℕ) :
    (kruskal E n).2.Perm E ∧
    (kruskal E n).2.Pairwise (fun a b => a.2.2 ≤ b.2.2) := by
  constructor
  · exact jsSort_perm edgeLe E
  · have h := jsSort_pairwise edgeLe
      (fun a b => by unfold edgeLe; rcases le_total a.2.2 b.2.2 with h | h <;> simp [h])
      (fun a b c hab hbc => by
        unfold edgeLe at hab hbc ⊢
        simp only [decide_eq_true_eq] at hab hbc ⊢
        exact le_trans hab hbc) E
    exact h.imp (fun hab => by simpa [edgeLe] using hab)

/-- Priority comparison for `prim`'s queue (plain numeric weights). -/
def pqLeZ (a b : ℕ × ℤ) : Bool := decide (a.2 ≤ b.2)

/-- The main loop of `prim`: pop the minimum vertex; skip if visited; else
mark visited and, for every edge to a not-yet-visited neighbor, enqueue it
and record the edge `[u, v, weight]`. -/
def primLoop (g : AdjList) : ℕ → List ℕ → List (ℕ × ℤ) → List EdgeT → RunRes (List EdgeT)
  | 0, _, [], res => .done res
  | 0, _, _ :: _, _ => .fuelOut
  | _ + 1, _, [], res => .done res
  | fuel + 1, visited, (u, _) :: rest, res =>
    if u ∈ visited then primLoop g fuel visited rest res
    else
      match adjGet g u with
      | none => .err
      | some edges =>
        let visited' := visited ++ [u]
        let qr := edges.foldl (fun acc e =>
          if e.1 ∈ visited' then acc
          else (jsSort pqLeZ (acc.1 ++ [e]), acc.2 ++ [(u, e.1, e.2)])) (rest, res)
        primLoop g fuel visited' qr.1 qr.2

/-- `prim(adjList, start)`. -/
def prim (g : AdjList) (s : ℕ) (fuel : ℕ) : RunRes (List EdgeT) :=
  primLoop g fuel [] [(s, 0)] []

/-- Extract the edge list of a finished run, for concrete evaluation. -/
def listAt (r : RunRes (List EdgeT)) : Option (List EdgeT) :=
  match r with
  | .done l => some l
  | _ => none

/-- Two vertices are joined when they are related by the equivalence
closure of the edge relation of the list `E`. -/
def JoinedE (E : List EdgeT) (a b : ℕ) : Prop :=
  Relation.EqvGen (fun x y => ∃ w, (x, y, w) ∈ E) a b

/-- An edge list is a forest (contains no cycle): every edge is a bridge,
i.e. its endpoints are not joined by the remaining edges. -/
def Acyclic (F : List EdgeT) : Prop :=
  ∀ pre e post, F = pre ++ e :: post → ¬ JoinedE (pre ++ post) e.1 e.2.1

/-- C5: `prim` records every edge from a newly visited vertex to its
then-unvisited neighbors, not only the tree edge.  On the (connected)
triangle graph from start `0` it returns all three edges — more than
`vertexCount - 1 = 2` — and the result contains a cycle, so it includes a
non-tree edge. -/
theorem prim_records_non_tree_edges :
    (∀ u v, u < 3 → v < 3 → ∃ steps, WalkSeg (adjMem triangleG) u steps v) ∧
    listAt (prim triangleG 0 16) = some [(0, 1, 1), (0, 2, 1), (1, 2, 1)] ∧
    3 > 3 - 1 ∧
    ¬ Acyclic [(0, 1, 1), (0, 2, 1), (1, 2, 1)] := by
  refine ⟨?_, by decide, by omega, ?_⟩
  · have hadj : ∀ u v, u < 3 → v < 3 → u ≠ v → adjMem triangleG u v 1 := by
      intro u v hu hv huv
      interval_cases u <;> interval_cases v <;>
        first
        | exact absurd rfl huv
        | exact ⟨_, rfl, by simp⟩
    intro u v hu hv
    by_cases huv : u = v
    · subst huv
      exact ⟨[], WalkSeg.nil u⟩
    · exact ⟨[] ++ [(v, 1)], (WalkSeg.nil u).cons (hadj u v hu hv huv)⟩
  · intro hacy
    have hsplit : [(0, 1, 1), (0, 2, 1), (1, 2, 1)] =
        [(0, 1, 1), (0, 2, 1)] ++ ((1 : ℕ), (2 : ℕ), (1 : ℤ)) :: [] := by rfl
    refine hacy [(0, 1, 1), (0, 2, 1)] (1, 2, 1) [] hsplit ?_
    show JoinedE ([(0, 1, 1), (0, 2, 1)] ++ []) 1 2
    refine Relation.EqvGen.trans 1 0 2 ?_ ?_
    · exact Relation.EqvGen.symm 0 1 (Relation.EqvGen.rel 0 1 ⟨1, by simp⟩)
    · exact Relation.EqvGen.rel 0 2 ⟨1, by simp⟩

theorem adjGet_adjUpdate (g : AdjList) (u x : ℕ) (f : List AdjEdge → List AdjEdge) :
    adjGet (adjUpdate g u f) x = if x = u then (adjGet g u).map f else adjGet g x := by
  induction g with
  | nil =>
    by_cases hxu : x = u <;> simp [adjGet, adjUpdate, hxu]
  | cons p t ih =>
    obtain ⟨k, l⟩ := p
    have hcons : adjUpdate ((k, l) :: t) u f =
        (k, if k = u then f l else l) :: adjUpdate t u f := rfl
    rw [hcons]
    by_cases hkx : k = x
    · by_cases hxu : x = u
      · have hku : k = u := hkx.trans hxu
        simp [adjGet, hkx, hxu, hku]
      · have hku : ¬ k = u := fun h => hxu (hkx.symm.trans h)
        simp [adjGet, hkx, hxu, hku]
    · by_cases hxu : x = u
      · by_cases hku : k = u
        · exact absurd (hku.trans hxu.symm) hkx
        · rw [hxu] at ih
          simp [adjGet, hkx, hxu, hku, ih]
      · simp [adjGet, hkx, hxu, ih]

theorem adjKeys_adjUpdate (g : AdjList) (u : ℕ) (f : List AdjEdge → List AdjEdge) :
    adjKeys (adjUpdate g u f) = adjKeys g := by
  induction g with
  | nil => rfl
  | cons p t ih =>
    simp only [adjUpdate, adjKeys, List.map_cons] at ih ⊢
    rw [ih]

theorem adjMem_iff_get {g : AdjList} {x y : ℕ} {w : ℤ} {l : List AdjEdge}
    (h : adjGet g x = some l) : adjMem g x y w ↔ (y, w) ∈ l := by
  constructor
  · rintro ⟨l', hl', hm⟩
    rw [h] at hl'
    cases hl'
    exact hm
  · intro hm
    exact ⟨l, h, hm⟩

/-- Effect of one successful `addEdgeToList` call on edge membership: the
stored edges are the old ones plus the two new directed copies. -/
theorem addEdgeToList_mem {g g' : AdjList} {u v : ℕ} {w : ℤ}
    (h : addEdgeToList g u v w = some g') :
    adjKeys g' = adjKeys g ∧
    ∀ x y w', adjMem g' x y w' ↔
      adjMem g x y w' ∨ (x = u ∧ y = v ∧ w' = w) ∨ (x = v ∧ y = u ∧ w' = w) := by
  unfold addEdgeToList at h
  cases hu : adjGet g u with
  | none => rw [hu] at h; cases h
  | some lu =>
    rw [hu] at h
    simp only at h
    cases hv : adjGet (adjUpdate g u (fun l => l ++ [(v, w)])) v with
    | none => rw [hv] at h; cases h
    | some lv =>
      rw [hv] at h
      simp only at h
      cases h
      set g1 := adjUpdate g u (fun l => l ++ [(v, w)]) with hg1
      constructor
      · rw [adjKeys_adjUpdate, adjKeys_adjUpdate]
      · intro x y w'
        have hgetx : adjGet (adjUpdate g1 v (fun l => l ++ [(u, w)])) x =
            if x = v then (adjGet g1 v).map (fun l => l ++ [(u, w)]) else adjGet g1 x :=
          adjGet_adjUpdate g1 v x _
        have hgetx1 : adjGet g1 x =
            if x = u then (adjGet g u).map (fun l => l ++ [(v, w)]) else adjGet g x :=
          adjGet_adjUpdate g u x _
        by_cases hxv : x = v
        · rw [hv] at hgetx
          rw [if_pos hxv] at hgetx
          simp only [Option.map_some'] at hgetx
          rw [adjMem_iff_get hgetx]
          by_cases hxu : x = u
          · -- u = v = x : both pushes happened on the same array
            have huv : u = v := (hxu.symm.trans hxv)
            have hlv : lv = lu ++ [(v, w)] := by
              have : adjGet g1 v = (adjGet g u).map (fun l => l ++ [(v, w)]) := by
                rw [hg1, adjGet_adjUpdate, if_pos huv.symm]
              rw [hv, hu] at this
              simpa using this
            rw [hlv]
            rw [adjMem_iff_get (show adjGet g x = some lu from hxu ▸ hu)]
            simp only [List.append_assoc, List.mem_append, List.mem_singleton]
            constructor
            · rintro (hm | hm | hm)
              · exact Or.inl hm
              · simp at hm
                exact Or.inr (Or.inl ⟨hxu, hm.1, hm.2⟩)
              · simp at hm
                exact Or.inr (Or.inr ⟨hxv, hm.1, hm.2⟩)
            · rintro (hm | ⟨h1, h2, h3⟩ | ⟨h1, h2, h3⟩)
              · exact Or.inl hm
              · subst h2; subst h3
                right; left
                simp [huv]
              · subst h2; subst h3
                right; right
                simp [huv.symm]
          · -- x = v ≠ u
            have hlv : lv = (adjGet g v).getD [] ++ [] ∨ True := Or.inr trivial
            have hgv : adjGet g1 v = adjGet g v := by
              rw [hg1, adjGet_adjUpdate, if_neg (fun h => hxu (hxv.trans h))]
            rw [hgv] at hv
            rw [adjMem_iff_get (hxv ▸ hv : adjGet g x = some lv)]
            simp only [List.mem_append, List.mem_singleton]
            constructor
            · rintro (hm | hm)
              · exact Or.inl hm
              · simp at hm
                exact Or.inr (Or.inr ⟨hxv, hm.1, hm.2⟩)
            · rintro (hm | ⟨h1, h2, h3⟩ | ⟨h1, h2, h3⟩)
              · exact Or.inl hm
              · exact absurd h1 hxu
              · subst h2; subst h3
                simp
        · rw [if_neg hxv] at hgetx
          rw [hgetx1] at hgetx
          by_cases hxu : x = u
          · rw [if_pos hxu, hu] at hgetx
            simp only [Option.map_some'] at hgetx
            rw [adjMem_iff_get hgetx]
            rw [adjMem_iff_get (hxu ▸ hu : adjGet g x = some lu)]
            simp only [List.mem_append, List.mem_singleton]
            constructor
            · rintro (hm | hm)
              · exact Or.inl hm
              · simp at hm
                exact Or.inr (Or.inl ⟨hxu, hm.1, hm.2⟩)
            · rintro (hm | ⟨h1, h2, h3⟩ | ⟨h1, h2, h3⟩)
              · exact Or.inl hm
              · subst h2; subst h3
                simp
              · exact absurd h1 hxv
          · rw [if_neg hxu] at hgetx
            constructor
            · intro hm
              obtain ⟨l', hl', hmm⟩ := hm
              rw [hgetx] at hl'
              exact Or.inl ⟨l', hl', hmm⟩
            · rintro (⟨l', hl', hmm⟩ | ⟨h1, h2, h3⟩ | ⟨h1, h2, h3⟩)
              · exact ⟨l', hgetx ▸ hl', hmm⟩
              · exact absurd h1 hxu
              · exact absurd h1 hxv

/-- Cell access `matrix[x][y]` (outer `none` when either index is out of
range; inner value `none` models a hole). -/
def matCell (m : JsMatrix) (x y : ℕ) : Option (Option ℤ) :=
  m[x]?.bind (fun row => row[y]?)

theorem addEdgeToMatrix_inrange {n : ℕ} {m : JsMatrix} (hm : m.length = n)
    (hrows : ∀ r ∈ m, r.length = n) {u v : ℕ} (hu : u < n) (hv : v < n) (w : ℤ) :
    (addEdgeToMatrix m u v w).2 = false ∧
    (addEdgeToMatrix m u v w).1.length = n ∧
    (∀ r ∈ (addEdgeToMatrix m u v w).1, r.length = n) ∧
    ∀ x y, matCell (addEdgeToMatrix m u v w).1 x y =
      if x = v ∧ y = u then some (some w)
      else if x = u ∧ y = v then some (some w)
      else matCell m x y := by
  have hul : u < m.length := by rw [hm]; exact hu
  obtain ⟨rowU, hrowU⟩ : ∃ r, m[u]? = some r := ⟨m[u], List.getElem?_eq_getElem hul⟩
  have hrowUm : rowU ∈ m := by
    obtain ⟨h, hg⟩ := List.getElem?_eq_some.mp hrowU
    rw [← hg]
    exact List.getElem_mem h
  have hrowUlen : rowU.length = n := hrows rowU hrowUm
  have hsetU : jsArraySet rowU v w = rowU.set v (some w) := by
    unfold jsArraySet
    rw [if_pos (by rw [hrowUlen]; exact hv)]
  set rowU' := rowU.set v (some w) with hrowU'
  set m1 := m.set u rowU' with hm1
  have hm1len : m1.length = n := by rw [hm1, List.length_set, hm]
  have hm1get : ∀ x, m1[x]? = if x = u then some rowU' else m[x]? := by
    intro x
    by_cases hx : x = u
    · subst hx
      rw [if_pos rfl, hm1, List.getElem?_set_self']
      rw [hrowU]
      rfl
    · rw [if_neg hx, hm1, List.getElem?_set_ne (fun h => hx h.symm)]
  have hvl1 : v < m1.length := by rw [hm1len]; exact hv
  obtain ⟨rowV, hrowV⟩ : ∃ r, m1[v]? = some r := ⟨m1[v], List.getElem?_eq_getElem hvl1⟩
  have hrowVlen : rowV.length = n := by
    rcases (hm1get v) with h
    rw [h] at hrowV
    by_cases hvu : v = u
    · rw [if_pos hvu] at hrowV
      cases hrowV
      rw [hrowU', List.length_set]
      exact hrowUlen
    · rw [if_neg hvu] at hrowV
      obtain ⟨hb, hg⟩ := List.getElem?_eq_some.mp hrowV
      refine hrows rowV ?_
      rw [← hg]
      exact List.getElem_mem hb
  have hsetV : jsArraySet rowV u w = rowV.set u (some w) := by
    unfold jsArraySet
    rw [if_pos (by rw [hrowVlen]; exact hu)]
  set rowV' := rowV.set u (some w) with hrowV'
  set m2 := m1.set v rowV' with hm2
  have hstep : addEdgeToMatrix m u v w = (m2, false) := by
    unfold addEdgeToMatrix
    rw [hrowU]
    simp only
    rw [hsetU, ← hm1]
    rw [hrowV]
    simp only
    rw [hsetV, ← hm2]
  rw [hstep]
  have hm2len : m2.length = n := by rw [hm2, List.length_set, hm1len]
  have hm2get : ∀ x, m2[x]? = if x = v then some rowV' else m1[x]? := by
    intro x
    by_cases hx : x = v
    · subst hx
      rw [if_pos rfl, hm2, List.getElem?_set_self']
      rw [hrowV]
      rfl
    · rw [if_neg hx, hm2, List.getElem?_set_ne (fun h => hx h.symm)]
  refine ⟨rfl, hm2len, ?_, ?_⟩
  · intro r hr
    rw [hm2] at hr
    rcases List.mem_or_eq_of_mem_set hr with hr' | hr'
    · rw [hm1] at hr'
      rcases List.mem_or_eq_of_mem_set hr' with hr'' | hr''
      · exact hrows r hr''
      · rw [hr'', hrowU', List.length_set]
        exact hrowUlen
    · rw [hr', hrowV', List.length_set]
      exact hrowVlen
  · intro x y
    show m2[x]?.bind (fun row => row[y]?) = _
    rw [hm2get x]
    by_cases hxv : x = v
    · rw [if_pos hxv]
      simp only [Option.some_bind]
      by_cases hyu : y = u
      · rw [if_pos ⟨hxv, hyu⟩]
        subst hyu
        rw [hrowV', List.getElem?_set_self']
        have : rowV[y]? = some rowV[y] :=
          List.getElem?_eq_getElem (by rw [hrowVlen]; exact hu)
        rw [this]
        rfl
      · rw [if_neg (fun h => hyu h.2)]
        rw [hrowV', List.getElem?_set_ne (fun h => hyu h.symm)]
        have hrv : rowV[y]? = (if v = u then rowU' else m[v]?.getD [])[y]? := by
          have h := hm1get v
          rw [h] at hrowV
          by_cases hvu : v = u
          · rw [if_pos hvu] at hrowV
            cases hrowV
            rw [if_pos hvu]
          · rw [if_neg hvu] at hrowV
            rw [if_neg hvu, hrowV]
            rfl
        rw [hrv]
        by_cases hvu : v = u
        · rw [if_pos hvu]
          by_cases hyv : y = v
          · exact absurd (hyv.trans hvu) hyu
          · rw [hrowU', List.getElem?_set_ne (fun h => hyv h.symm)]
            rw [if_neg (fun h : x = u ∧ y = v => hyv h.2)]
            show _ = m[x]?.bind (fun row => row[y]?)
            rw [hxv, hvu, hrowU]
            rfl
        · rw [if_neg hvu]
          rw [if_neg (fun h : x = u ∧ y = v => hvu (h.1.symm.trans hxv).symm)]
          show _ = m[x]?.bind (fun row => row[y]?)
          rw [hxv]
          cases hmv : m[v]? with
          | none =>
            have : v < m.length := by rw [hm]; exact hv
            rw [List.getElem?_eq_getElem this] at hmv
            cases hmv
          | some r =>
            simp [hmv]
    · rw [if_neg hxv, hm1get x]
      by_cases hxu : x = u
      · rw [if_pos hxu]
        simp only [Option.some_bind]
        rw [if_neg (fun h : x = v ∧ y = u => hxv h.1)]
        by_cases hyv : y = v
        · rw [if_pos ⟨hxu, hyv⟩]
          subst hyv
          rw [hrowU', List.getElem?_set_self']
          have : rowU[y]? = some rowU[y] :=
            List.getElem?_eq_getElem (by rw [hrowUlen]; exact hv)
          rw [this]
          rfl
        · rw [if_neg (fun h => hyv h.2)]
          rw [hrowU', List.getElem?_set_ne (fun h => hyv h.symm)]
          show _ = m[x]?.bind (fun row => row[y]?)
          rw [hxu, hrowU]
          rfl
      · rw [if_neg hxu]
        rw [if_neg (fun h : x = v ∧ y = u => hxv h.1),
          if_neg (fun h : x = u ∧ y = v => hxu h.1)]
        rfl

theorem adjGet_isSome_of_key {g : AdjList} {u : ℕ} (h : u ∈ adjKeys g) :
    ∃ l, adjGet g u = some l := by
  induction g with
  | nil => simp [adjKeys] at h
  | cons p t ih =>
    by_cases hp : p.1 = u
    · exact ⟨p.2, by simp [adjGet, hp]⟩
    · simp only [adjKeys, List.map_cons, List.mem_cons] at h
      rcases h with h | h
      · exact absurd h.symm hp
      · obtain ⟨l, hl⟩ := ih h
        exact ⟨l, by simp [adjGet, hp, hl]⟩

/-- A sequence of `addEdgeToList` calls, each as `acc.bind`. -/
def applyListEdges (calls : List EdgeT) (g : AdjList) : Option AdjList :=
  calls.foldl (fun acc c => acc.bind (fun g => addEdgeToList g c.1 c.2.1 c.2.2)) (some g)

/-- A sequence of `addEdgeToMatrix` calls (states threaded through). -/
def applyMatrixEdges (calls : List EdgeT) (m : JsMatrix) : JsMatrix :=
  calls.foldl (fun m c => (addEdgeToMatrix m c.1 c.2.1 c.2.2).1) m

theorem applyList_inv (n : ℕ) : ∀ (calls : List EdgeT) (g : AdjList),
    (∀ c ∈ calls, c.1 < n ∧ c.2.1 < n) →
    adjKeys g = List.range n →
    (∀ x y w, adjMem g x y w → adjMem g y x w) →
    ∃ g', applyListEdges calls g = some g' ∧ adjKeys g' = List.range n ∧
      (∀ x y w, adjMem g' x y w → adjMem g' y x w) := by
  intro calls
  induction calls with
  | nil =>
    intro g _ hkeys hsym
    exact ⟨g, rfl, hkeys, hsym⟩
  | cons c t ih =>
    intro g hc hkeys hsym
    obtain ⟨hc1, hc2⟩ := hc c (by simp)
    obtain ⟨lu, hlu⟩ := @adjGet_isSome_of_key g c.1
      (by rw [hkeys]; simpa using hc1)
    obtain ⟨lv, hlv⟩ := @adjGet_isSome_of_key g c.2.1
      (by rw [hkeys]; simpa using hc2)
    have hstep : ∃ g1, addEdgeToList g c.1 c.2.1 c.2.2 = some g1 := by
      unfold addEdgeToList
      rw [hlu]
      simp only
      rw [adjGet_adjUpdate]
      by_cases hvu : c.2.1 = c.1
      · rw [if_pos hvu, hvu, hlu]
        exact ⟨_, rfl⟩
      · rw [if_neg hvu, hlv]
        exact ⟨_, rfl⟩
    obtain ⟨g1, hg1⟩ := hstep
    obtain ⟨hkeys1, hmem1⟩ := addEdgeToList_mem hg1
    have hkeys1' : adjKeys g1 = List.range n := by rw [hkeys1, hkeys]
    have hsym1 : ∀ x y w, adjMem g1 x y w → adjMem g1 y x w := by
      intro x y w hm
      rcases (hmem1 x y w).mp hm with h | ⟨h1, h2, h3⟩ | ⟨h1, h2, h3⟩
      · exact (hmem1 y x w).mpr (Or.inl (hsym x y w h))
      · exact (hmem1 y x w).mpr (Or.inr (Or.inr ⟨h2, h1, h3⟩))
      · exact (hmem1 y x w).mpr (Or.inr (Or.inl ⟨h2, h1, h3⟩))
    obtain ⟨g', hg', hk', hs'⟩ := ih g1 (fun e he => hc e (by simp [he])) hkeys1' hsym1
    refine ⟨g', ?_, hk', hs'⟩
    unfold applyListEdges at hg' ⊢
    rw [List.foldl_cons]
    simpa [hg1] using hg'

theorem applyMatrix_inv (n : ℕ) : ∀ (calls : List EdgeT) (m : JsMatrix),
    (∀ c ∈ calls, c.1 < n ∧ c.2.1 < n) →
    m.length = n → (∀ r ∈ m, r.length = n) →
    (∀ x y, matCell m x y = matCell m y x) →
    (applyMatrixEdges calls m).length = n ∧
      (∀ r ∈ applyMatrixEdges calls m, r.length = n) ∧
      (∀ x y, matCell (applyMatrixEdges calls m) x y =
        matCell (applyMatrixEdges calls m) y x) := by
  intro calls
  induction calls with
  | nil =>
    intro m _ hlen hrows hsym
    exact ⟨hlen, hrows, hsym⟩
  | cons c t ih =>
    intro m hc hlen hrows hsym
    obtain ⟨hc1, hc2⟩ := hc c (by simp)
    obtain ⟨herr, hlen', hrows', hcell⟩ :=
      addEdgeToMatrix_inrange hlen hrows hc1 hc2 c.2.2
    have hsym' : ∀ x y, matCell (addEdgeToMatrix m c.1 c.2.1 c.2.2).1 x y =
        matCell (addEdgeToMatrix m c.1 c.2.1 c.2.2).1 y x := by
      intro x y
      rw [hcell x y, hcell y x]
      by_cases h1 : x = c.2.1 ∧ y = c.1
      · rw [if_pos h1]
        by_cases h2 : y = c.2.1 ∧ x = c.1
        · rw [if_pos h2]
        · rw [if_neg h2, if_pos ⟨h1.2, h1.1⟩]
      · rw [if_neg h1]
        by_cases h2 : x = c.1 ∧ y = c.2.1
        · rw [if_pos h2, if_pos ⟨h2.2, h2.1⟩]
        · rw [if_neg h2]
          by_cases h3 : y = c.2.1 ∧ x = c.1
          · exact absurd ⟨h3.2, h3.1⟩ h2
          · rw [if_neg h3]
            by_cases h4 : y = c.1 ∧ x = c.2.1
            · exact absurd ⟨h4.2, h4.1⟩ h1
            · rw [if_neg h4]
              exact hsym x y
    have := ih (addEdgeToMatrix m c.1 c.2.1 c.2.2).1
      (fun e he => hc e (by simp [he])) hlen' hrows' hsym'
    unfold applyMatrixEdges at this ⊢
    rw [List.foldl_cons]
    exact this

theorem adjKeys_create (n : ℕ) : adjKeys (createAdjacencyList n) = List.range n := by
  unfold adjKeys createAdjacencyList
  rw [List.map_map]
  have h : (Prod.fst ∘ fun i : ℕ => (i, ([] : List AdjEdge))) = id := rfl
  rw [h, List.map_id]

theorem matCell_create (n : ℕ) (x y : ℕ) :
    matCell (createAdjacencyMatrix n) x y =
      if x < n ∧ y < n then some (some 0) else none := by
  unfold matCell createAdjacencyMatrix
  by_cases hx : x < n
  · rw [List.getElem?_replicate, if_pos hx]
    simp only [Option.some_bind]
    by_cases hy : y < n
    · rw [List.getElem?_replicate, if_pos hy, if_pos ⟨hx, hy⟩]
    · rw [List.getElem?_replicate, if_neg hy, if_neg (fun h => hy h.2)]
  · rw [List.getElem?_replicate, if_neg hx]
    rw [if_neg (fun h => hx h.1)]
    rfl

/-- C6: starting from either constructor and applying any sequence of
in-range `addEdgeToList` / `addEdgeToMatrix` calls, the undirected
symmetry invariant holds: edge `(u,v)` present with weight `w` iff
`(v,u)` present with the same weight (list), and `matrix[u][v] =
matrix[v][u]` (matrix). -/
theorem undirected_symmetry (n : ℕ) (calls : List EdgeT)
    (hc : ∀ c ∈ calls, c.1 < n ∧ c.2.1 < n) :
    (∃ g', applyListEdges calls (createAdjacencyList n) = some g' ∧
      ∀ x y w, adjMem g' x y w → adjMem g' y x w) ∧
    (∀ x y, matCell (applyMatrixEdges calls (createAdjacencyMatrix n)) x y =
      matCell (applyMatrixEdges calls (createAdjacencyMatrix n)) y x) := by
  constructor
  · obtain ⟨g', h1, _, h3⟩ := applyList_inv n calls (createAdjacencyList n) hc
      (adjKeys_create n)
      (by rintro x y w ⟨l, hl, hm⟩
          have := adjGet_eq_some_mem hl
          unfold createAdjacencyList at this
          obtain ⟨i, hi, heq⟩ := List.mem_map.mp this
          cases heq
          simp at hm)
    exact ⟨g', h1, h3⟩
  · exact (applyMatrix_inv n calls (createAdjacencyMatrix n) hc
      (by simp [createAdjacencyMatrix])
      (by intro r hr
          rw [createAdjacencyMatrix] at hr
          rw [List.eq_of_mem_replicate hr]
          simp)
      (by intro x y
          rw [matCell_create, matCell_create]
          by_cases h1 : x < n ∧ y < n
          · rw [if_pos h1, if_pos ⟨h1.2, h1.1⟩]
          · rw [if_neg h1, if_neg (fun h => h1 ⟨h.2, h.1⟩)])).2.2

/-- C6 witness: the invariant applied to the call sequence
`addEdge(0,1,5); addEdge(1,2,3)` on three vertices. -/
theorem undirected_symmetry_witness :
    (∃ g', applyListEdges [(0, 1, 5), (1, 2, 3)] (createAdjacencyList 3) = some g' ∧
      ∀ x y w, adjMem g' x y w → adjMem g' y x w) ∧
    (∀ x y, matCell (applyMatrixEdges [(0, 1, 5), (1, 2, 3)] (createAdjacencyMatrix 3)) x y =
      matCell (applyMatrixEdges [(0, 1, 5), (1, 2, 3)] (createAdjacencyMatrix 3)) y x) :=
  undirected_symmetry 3 [(0, 1, 5), (1, 2, 3)] (by decide)

/-- The `while` loop of `bfs`: FIFO dequeue; on a new vertex, mark visited,
record it, and enqueue all neighbors (`adjList.get` of an absent key makes
the JS code throw at `.map`). -/
def bfsLoop (g : AdjList) : ℕ → List ℕ → List ℕ → List ℕ → RunRes (List ℕ)
  | 0, _, [], res => .done res
  | 0, _, _ :: _, _ => .fuelOut
  | _ + 1, _, [], res => .done res
  | fuel + 1, visited, v :: rest, res =>
    if v ∈ visited then bfsLoop g fuel visited rest res
    else
      match adjGet g v with
      | none => .err
      | some edges => bfsLoop g fuel (visited ++ [v]) (rest ++ edges.map Prod.fst) (res ++ [v])

/-- `bfs(adjList, start)`. -/
def bfs (g : AdjList) (s : ℕ) (fuel : ℕ) : RunRes (List ℕ) := bfsLoop g fuel [] [s] []

/-- Recursive `dfs(adjList, start, visited)`, returning the preorder list
and the visited set; the shared mutable `visited` set is threaded through
the recursive calls. -/
def dfsF (g : AdjList) : ℕ → ℕ → List ℕ → RunRes (List ℕ × List ℕ)
  | 0, _, _ => .fuelOut
  | fuel + 1, s, visited =>
    match adjGet g s with
    | none => .err
    | some edges =>
      edges.foldl (fun acc e =>
        match acc with
        | .done rv =>
          if e.1 ∈ rv.2 then .done rv
          else
            match dfsF g fuel e.1 rv.2 with
            | .done rv' => .done (rv.1 ++ rv'.1, rv'.2)
            | .err => .err
            | .fuelOut => .fuelOut
        | other => other) (.done ([s], visited ++ [s]))

/-- `dfs(adjList, start)` with the default fresh visited set. -/
def dfs (g : AdjList) (s : ℕ) (fuel : ℕ) : RunRes (List ℕ) :=
  match dfsF g fuel s [] with
  | .done rv => .done rv.1
  | .err => .err
  | .fuelOut => .fuelOut

theorem adjGet_eq_none_of_ge {g : AdjList} {n s : ℕ} (hwf : WFAdj g n) (hs : n ≤ s) :
    adjGet g s = none := by
  cases h : adjGet g s with
  | none => rfl
  | some l =>
    have hmem := adjGet_eq_some_mem h
    have : s ∈ adjKeys g := List.mem_map.mpr ⟨(s, l), hmem, rfl⟩
    rw [hwf.1, List.mem_range] at this
    omega

/-- C7 counterexample: `bellmanFord` called with the out-of-range start
vertex `2` on a 2-vertex graph returns normally (the JS assignment
`distances[start] = 0` merely extends the array), with `distances[0] =
distances[1] = Infinity` and the stray entry `distances[2] = 0`. -/
theorem bellmanFord_out_of_range_start_returns :
    (2 : ℕ) ≤ 2 ∧ (bellmanFord [] 2 2).isSome = true ∧
    (bellmanFord [] 2 2).map (fun st => st.1 0) = some ⊤ ∧
    (bellmanFord [] 2 2).map (fun st => st.1 2) = some ((0 : ℤ) : WithTop ℤ) := by
  refine ⟨le_refl 2, ?_, ?_, ?_⟩ <;> rfl

/-- C7 amended: every vertex id outside `[0, n)` passed to a mutator
(`addEdgeToMatrix`, `addEdgeToList`) or as the start vertex of one of the
adjacency-list algorithms `bfs`, `dfs`, `dijkstra`, `prim` makes the call
throw; `bellmanFord` is the exception — with an out-of-range start it
returns normally. -/
theorem out_of_range_errors (n : ℕ) (g : AdjList) (hwf : WFAdj g n)
    (u v s : ℕ) (w : ℤ) (m : JsMatrix) (hm : m.length = n)
    (hs : n ≤ s) (fuel : ℕ) (hfuel : 1 ≤ fuel) :
    (n ≤ u ∨ n ≤ v → addEdgeToList g u v w = none) ∧
    (n ≤ u ∨ n ≤ v → (addEdgeToMatrix m u v w).2 = true) ∧
    bfs g s fuel = .err ∧
    dfs g s fuel = .err ∧
    dijkstra g s fuel = .err ∧
    prim g s fuel = .err := by
  obtain ⟨fuel', rfl⟩ : ∃ k, fuel = k + 1 := ⟨fuel - 1, by omega⟩
  have hgets : adjGet g s = none := adjGet_eq_none_of_ge hwf hs
  refine ⟨?_, ?_, ?_, ?_, ?_, ?_⟩
  · intro h
    unfold addEdgeToList
    rcases h with h | h
    · rw [adjGet_eq_none_of_ge hwf h]
    · cases hu : adjGet g u with
      | none => rfl
      | some lu =>
        simp only
        rw [adjGet_adjUpdate]
        have hvn : adjGet g v = none := adjGet_eq_none_of_ge hwf h
        have hvu : v ≠ u := by
          intro heq
          rw [heq, hu] at hvn
          cases hvn
        rw [if_neg hvu, hvn]
  · intro h
    unfold addEdgeToMatrix
    rcases h with h | h
    · have : m[u]? = none := by rw [List.getElem?_eq_none]; omega
      rw [this]
    · cases hu : m[u]? with
      | none => rfl
      | some rowU =>
        simp only
        have : (m.set u (jsArraySet rowU v w))[v]? = none := by
          rw [List.getElem?_eq_none]
          rw [List.length_set]
          omega
        rw [this]
  · unfold bfs bfsLoop
    simp only [List.not_mem_nil, if_neg (fun h => h : ¬ False)]
    rw [hgets]
  · unfold dfs dfsF
    rw [hgets]
  · unfold dijkstra dijkstraLoop
    simp only
    rw [hgets]
  · unfold prim primLoop
    simp only [List.not_mem_nil, if_neg (fun h => h : ¬ False)]
    rw [hgets]

/-- C7 amended-claim witness: concrete instance on the 2-vertex empty
graph with all out-of-range ids equal to `2`. -/
theorem out_of_range_errors_witness :
    (2 ≤ 2 ∨ 2 ≤ 2 → addEdgeToList (createAdjacencyList 2) 2 2 5 = none) ∧
    (2 ≤ 2 ∨ 2 ≤ 2 → (addEdgeToMatrix (createAdjacencyMatrix 2) 2 2 5).2 = true) ∧
    bfs (createAdjacencyList 2) 2 8 = .err ∧
    dfs (createAdjacencyList 2) 2 8 = .err ∧
    dijkstra (createAdjacencyList 2) 2 8 = .err ∧
    prim (createAdjacencyList 2) 2 8 = .err :=
  out_of_range_errors 2 (createAdjacencyList 2)
    ⟨by decide, by decide⟩ 2 2 2 5 (createAdjacencyMatrix 2) (by decide)
    (by decide) 8 (by decide)

/-- Initial Bellman-Ford state: `distances[start] = 0`, `Infinity`
elsewhere, `previous` all `null`. -/
def bfInit (s : ℕ) : (ℕ → WithTop ℤ) × (ℕ → Option ℕ) :=
  (fun v => if v = s then (0 : WithTop ℤ) else ⊤, fun _ => none)

/-- State after the `vertices - 1` relaxation passes. -/
def bfAfter (E : List EdgeT) (n s : ℕ) : (ℕ → WithTop ℤ) × (ℕ → Option ℕ) :=
  (bfPass E)^[n - 1] (bfInit s)

theorem bfRelax_dist_le (st : (ℕ → WithTop ℤ) × (ℕ → Option ℕ)) (e : EdgeT) (x : ℕ) :
    (bfRelax st e).1 x ≤ st.1 x := by
  unfold bfRelax
  split
  · rename_i h
    simp only
    by_cases hx : x = e.2.1
    · rw [if_pos hx, hx]
      exact le_of_lt h
    · rw [if_neg hx]
  · exact le_refl _

theorem bfPass_dist_le (E : List EdgeT) :
    ∀ (st : (ℕ → WithTop ℤ) × (ℕ → Option ℕ)) (x : ℕ), (bfPass E st).1 x ≤ st.1 x := by
  induction E with
  | nil => intro st x; exact le_refl _
  | cons e t ih =>
    intro st x
    show (bfPass t (bfRelax st e)).1 x ≤ st.1 x
    exact le_trans (ih (bfRelax st e) x) (bfRelax_dist_le st e x)

theorem bfAfter_dist_le (E : List EdgeT) (n s : ℕ) (x : ℕ) :
    (bfAfter E n s).1 x ≤ (bfInit s).1 x := by
  unfold bfAfter
  generalize n - 1 = k
  induction k with
  | zero => exact le_refl _
  | succ k ih =>
    rw [Function.iterate_succ_apply']
    exact le_trans (bfPass_dist_le E _ x) ih

theorem bellmanFord_eq_some_iff (E : List EdgeT) (n s : ℕ)
    {st : (ℕ → WithTop ℤ) × (ℕ → Option ℕ)} :
    bellmanFord E n s = some st ↔
      (st = bfAfter E n s ∧
        ∀ e ∈ E, ¬ ((bfAfter E n s).1 e.1 + (e.2.2 : WithTop ℤ) < (bfAfter E n s).1 e.2.1)) := by
  unfold bellmanFord
  simp only
  rw [show (bfPass E)^[n-1] (fun v => if v = s then (0 : WithTop ℤ) else ⊤, fun _ => none) =
    bfAfter E n s from rfl]
  by_cases h : E.any (fun e => decide ((bfAfter E n s).1 e.1 + (e.2.2 : WithTop ℤ) <
      (bfAfter E n s).1 e.2.1))
  · rw [if_pos h]
    simp only [List.any_eq_true, decide_eq_true_eq] at h
    constructor
    · intro hc
      cases hc
    · rintro ⟨-, hno⟩
      obtain ⟨e, he, hrel⟩ := h
      exact absurd hrel (hno e he)
  · rw [if_neg h]
    simp only [List.any_eq_true, decide_eq_true_eq, not_exists] at h
    push_neg at h
    constructor
    · intro hc
      cases hc
      exact ⟨rfl, fun e he => not_lt.mpr (h e he)⟩
    · rintro ⟨rfl, -⟩
      rfl

theorem walkseg_fix_upper {mem : ℕ → ℕ → ℤ → Prop} {d : ℕ → WithTop ℤ}
    (hfix : ∀ u v w, mem u v w → d v ≤ d u + ((w : ℤ) : WithTop ℤ)) :
    ∀ {a b : ℕ} {steps : List AdjEdge}, WalkSeg mem a steps b →
      d b ≤ d a + ((walkWeight steps : ℤ) : WithTop ℤ) := by
  intro a b steps h
  induction h with
  | nil =>
    have : walkWeight [] = 0 := rfl
    rw [this]
    simp
  | @cons u v w steps hw e ih =>
    calc d v ≤ d u + ((w : ℤ) : WithTop ℤ) := hfix u v w e
      _ ≤ (d _ + ((walkWeight steps : ℤ) : WithTop ℤ)) + ((w : ℤ) : WithTop ℤ) :=
          add_le_add_right ih _
      _ = d _ + ((walkWeight (steps ++ [(v, w)]) : ℤ) : WithTop ℤ) := by
          rw [walkWeight_append, add_assoc]
          push_cast
          ring_nf

/-- C3: if a negative-weight cycle is reachable from `start`, `bellmanFord`
fails with the negative-cycle error (modelled by `none`); if no edge can
still be relaxed after the `vertices - 1` passes, it returns the
`(distances, previous)` pair; and the error is raised iff some edge still
relaxes in the extra checking pass. -/
theorem bellmanFord_negative_cycle (E : List EdgeT) (n s : ℕ) :
    ((∃ t steps₀ stepsC, WalkSeg (edgeMem E) s steps₀ t ∧ stepsC ≠ [] ∧
        WalkSeg (edgeMem E) t stepsC t ∧ walkWeight stepsC < 0) →
      bellmanFord E n s = none) ∧
    ((∀ e ∈ E, ¬ ((bfAfter E n s).1 e.1 + (e.2.2 : WithTop ℤ) < (bfAfter E n s).1 e.2.1)) →
      bellmanFord E n s = some (bfAfter E n s)) ∧
    (bellmanFord E n s = none ↔
      ∃ e ∈ E, (bfAfter E n s).1 e.1 + (e.2.2 : WithTop ℤ) < (bfAfter E n s).1 e.2.1) := by
  have hnone_iff : bellmanFord E n s = none ↔
      ∃ e ∈ E, (bfAfter E n s).1 e.1 + (e.2.2 : WithTop ℤ) < (bfAfter E n s).1 e.2.1 := by
    unfold bellmanFord
    simp only
    rw [show (bfPass E)^[n-1] (fun v => if v = s then (0 : WithTop ℤ) else ⊤, fun _ => none) =
      bfAfter E n s from rfl]
    by_cases h : E.any (fun e => decide ((bfAfter E n s).1 e.1 + (e.2.2 : WithTop ℤ) <
        (bfAfter E n s).1 e.2.1))
    · rw [if_pos h]
      simp only [List.any_eq_true, decide_eq_true_eq] at h
      simpa using h
    · rw [if_neg h]
      simp only [List.any_eq_true, decide_eq_true_eq] at h
      push_neg at h
      constructor
      · intro hc
        cases hc
      · rintro ⟨e, he, hrel⟩
        exact absurd hrel (not_lt.mpr (h e he))
  refine ⟨?_, ?_, hnone_iff⟩
  · rintro ⟨t, steps₀, stepsC, hwalk, -, hcycle, hneg⟩
    by_contra hne
    have hsome : ∃ st, bellmanFord E n s = some st := by
      cases hb : bellmanFord E n s with
      | none => exact absurd hb hne
      | some st => exact ⟨st, rfl⟩
    obtain ⟨st, hst⟩ := hsome
    obtain ⟨rfl, hno⟩ := (bellmanFord_eq_some_iff E n s).mp hst
    set d := (bfAfter E n s).1 with hd
    have hfix : ∀ u v w, edgeMem E u v w → d v ≤ d u + ((w : ℤ) : WithTop ℤ) := by
      intro u v w he
      exact not_lt.mp (hno (u, v, w) he)
    have hs0 : d s ≤ 0 := by
      have := bfAfter_dist_le E n s s
      rw [show (bfInit s).1 s = 0 from by simp [bfInit]] at this
      exact this
    have hdt : d t ≤ ((walkWeight steps₀ : ℤ) : WithTop ℤ) := by
      have h1 := walkseg_fix_upper hfix hwalk
      calc d t ≤ d s + ((walkWeight steps₀ : ℤ) : WithTop ℤ) := h1
        _ ≤ 0 + ((walkWeight steps₀ : ℤ) : WithTop ℤ) := add_le_add_right hs0 _
        _ = _ := zero_add _
    obtain ⟨c, hc⟩ : ∃ c : ℤ, d t = (c : WithTop ℤ) := by
      cases hdt' : d t with
      | top =>
        rw [hdt'] at hdt
        exact absurd (lt_of_le_of_lt hdt (WithTop.coe_lt_top _)) (lt_irrefl ⊤)
      | coe c => exact ⟨c, rfl⟩
    have hcyc := walkseg_fix_upper hfix hcycle
    rw [hc] at hcyc
    have : (c : WithTop ℤ) ≤ ((c + walkWeight stepsC : ℤ) : WithTop ℤ) := by
      calc (c : WithTop ℤ) ≤ (c : WithTop ℤ) + ((walkWeight stepsC : ℤ) : WithTop ℤ) := hcyc
        _ = _ := by push_cast; ring_nf
    rw [WithTop.coe_le_coe] at this
    omega
  · intro hno
    exact (bellmanFord_eq_some_iff E n s).mpr ⟨rfl, hno⟩

/-- C3 witness: the 2-cycle `0 ↔ 1` with weights `-1` makes
`bellmanFord` fail; on the single non-negative edge `0 → 1` no edge
relaxes after the passes and the call returns the state. -/
theorem bellmanFord_negative_cycle_witness :
    bellmanFord [(0, 1, -1), (1, 0, -1)] 2 0 = none ∧
    bellmanFord [(0, 1, 2)] 2 0 = some (bfAfter [(0, 1, 2)] 2 0) := by
  constructor
  · refine (bellmanFord_negative_cycle [(0, 1, -1), (1, 0, -1)] 2 0).1
      ⟨0, [], [(1, -1), (0, -1)], WalkSeg.nil 0, by simp, ?_, by decide⟩
    exact WalkSeg.cons (WalkSeg.cons (WalkSeg.nil 0) (by simp [edgeMem]))
      (by simp [edgeMem])
  · refine (bellmanFord_negative_cycle [(0, 1, 2)] 2 0).2.1 ?_
    intro e he
    simp only [List.mem_singleton] at he
    subst he
    decide

theorem bfRelax_nonneg {st : (ℕ → WithTop ℤ) × (ℕ → Option ℕ)} {e : EdgeT}
    (hw : 0 ≤ e.2.2) (h : ∀ x, 0 ≤ st.1 x) : ∀ x, 0 ≤ (bfRelax st e).1 x := by
  intro x
  unfold bfRelax
  split
  · simp only
    by_cases hx : x = e.2.1
    · rw [if_pos hx]
      have : (0 : WithTop ℤ) ≤ ((e.2.2 : ℤ) : WithTop ℤ) := by exact_mod_cast hw
      calc (0 : WithTop ℤ) ≤ st.1 e.1 := h e.1
        _ ≤ st.1 e.1 + ((e.2.2 : ℤ) : WithTop ℤ) := le_add_of_nonneg_right this
    · rw [if_neg hx]
      exact h x
  · exact h x

theorem bfFold_nonneg {E : List EdgeT} (hE : ∀ e ∈ E, (0 : ℤ) ≤ e.2.2) :
    ∀ (l : List EdgeT), (∀ e ∈ l, e ∈ E) →
      ∀ (st : (ℕ → WithTop ℤ) × (ℕ → Option ℕ)), (∀ x, 0 ≤ st.1 x) →
        ∀ x, 0 ≤ (l.foldl bfRelax st).1 x := by
  intro l
  induction l with
  | nil => intro _ st h x; exact h x
  | cons e t ih =>
    intro hsub st h x
    exact ih (fun e' he' => hsub e' (by simp [he'])) (bfRelax st e)
      (bfRelax_nonneg (hE e (hsub e (by simp))) h) x

theorem bfAfter_nonneg {E : List EdgeT} (hE : ∀ e ∈ E, (0 : ℤ) ≤ e.2.2) (n s : ℕ) :
    ∀ x, 0 ≤ (bfAfter E n s).1 x := by
  unfold bfAfter
  generalize n - 1 = k
  induction k with
  | zero =>
    intro x
    show (0 : WithTop ℤ) ≤ (bfInit s).1 x
    unfold bfInit
    by_cases hx : x = s <;> simp [hx]
  | succ k ih =>
    intro x
    rw [Function.iterate_succ_apply']
    exact bfFold_nonneg hE E (fun e he => he) _ ih x

/-- Reachability invariant of the Bellman-Ford state: every finite entry
is bounded below by the weight of some walk from `start`. -/
def BFReach (E : List EdgeT) (s : ℕ) (st : (ℕ → WithTop ℤ) × (ℕ → Option ℕ)) : Prop :=
  ∀ v, st.1 v ≠ ⊤ → ∃ steps, WalkSeg (edgeMem E) s steps v ∧
    ((walkWeight steps : ℤ) : WithTop ℤ) ≤ st.1 v

theorem bfRelax_reach {E : List EdgeT} {s : ℕ}
    {st : (ℕ → WithTop ℤ) × (ℕ → Option ℕ)} {e : EdgeT} (he : e ∈ E)
    (h : BFReach E s st) : BFReach E s (bfRelax st e) := by
  intro v hv
  unfold bfRelax at hv ⊢
  by_cases hlt : st.1 e.1 + ((e.2.2 : ℤ) : WithTop ℤ) < st.1 e.2.1
  · rw [if_pos hlt] at hv ⊢
    simp only at hv ⊢
    by_cases hx : v = e.2.1
    · subst hx
      rw [if_pos rfl] at hv ⊢
      have htu : st.1 e.1 ≠ ⊤ := by
        intro h'
        rw [h', top_add] at hv
        exact hv rfl
      obtain ⟨steps, hw, hle⟩ := h e.1 htu
      refine ⟨steps ++ [(e.2.1, e.2.2)], ?_, ?_⟩
      · refine WalkSeg.cons hw ?_
        show (e.1, e.2.1, e.2.2) ∈ E
        simpa using he
      · rw [walkWeight_append]
        calc (((walkWeight steps + e.2.2 : ℤ)) : WithTop ℤ)
            = ((walkWeight steps : ℤ) : WithTop ℤ) + ((e.2.2 : ℤ) : WithTop ℤ) := by push_cast; ring_nf
          _ ≤ st.1 e.1 + ((e.2.2 : ℤ) : WithTop ℤ) := add_le_add_right hle _
    · rw [if_neg hx] at hv ⊢
      exact h v hv
  · rw [if_neg hlt] at hv ⊢
    exact h v hv

theorem bfFold_reach {E : List EdgeT} {s : ℕ} :
    ∀ (l : List EdgeT), (∀ e ∈ l, e ∈ E) →
      ∀ (st : (ℕ → WithTop ℤ) × (ℕ → Option ℕ)), BFReach E s st →
        BFReach E s (l.foldl bfRelax st) := by
  intro l
  induction l with
  | nil => intro _ st h; exact h
  | cons e t ih =>
    intro hsub st h
    exact ih (fun e' he' => hsub e' (by simp [he'])) (bfRelax st e)
      (bfRelax_reach (hsub e (by simp)) h)

theorem bfAfter_reach (E : List EdgeT) (n s : ℕ) : BFReach E s (bfAfter E n s) := by
  unfold bfAfter
  generalize n - 1 = k
  induction k with
  | zero =>
    intro v hv
    simp only [Function.iterate_zero_apply] at hv ⊢
    unfold bfInit at hv ⊢
    by_cases hx : v = s
    · subst hx
      exact ⟨[], WalkSeg.nil v, by simp [walkWeight]⟩
    · simp only [if_neg hx] at hv
      exact absurd rfl hv
  | succ k ih =>
    rw [Function.iterate_succ_apply']
    exact bfFold_reach E (fun e he => he) _ ih

/-- C8: on a well-formed graph with non-negative weights, the distances
returned by `bellmanFord` on the graph's edge list agree exactly with the
distances returned by `dijkstra` on the adjacency list, vertex by vertex. -/
theorem bellmanFord_agrees_dijkstra (g : AdjList) (E : List EdgeT) (n s fuel : ℕ)
    (d : ℕ → WithTop ℤ) (p : ℕ → Option ℕ) (d' : ℕ → WithTop ℤ) (p' : ℕ → Option ℕ)
    (hwf : WFAdj g n) (hnn : AdjNonneg g)
    (hrel : ∀ u v w, adjMem g u v w ↔ (u, v, w) ∈ E)
    (hdij : dijkstra g s fuel = .done (d, p))
    (hbf : bellmanFord E n s = some (d', p')) :
    ∀ v, d v = d' v := by
  have hEnn : ∀ e ∈ E, (0 : ℤ) ≤ e.2.2 := by
    intro e he
    exact adjMem_nonneg hnn ((hrel e.1 e.2.1 e.2.2).mpr he)
  have hmain := dijkstra_shortest g n s fuel d p hwf hnn hdij
  obtain ⟨heq, hno⟩ := (bellmanFord_eq_some_iff E n s).mp hbf
  have hd' : d' = (bfAfter E n s).1 := congrArg Prod.fst heq
  have hfix' : ∀ u v w, edgeMem E u v w → d' v ≤ d' u + ((w : ℤ) : WithTop ℤ) := by
    intro u v w he
    rw [hd']
    exact not_lt.mp (hno (u, v, w) he)
  have hnn' : ∀ x, 0 ≤ d' x := by
    rw [hd']
    exact bfAfter_nonneg hEnn n s
  have hs0' : d' s = 0 := by
    refine le_antisymm ?_ (hnn' s)
    rw [hd']
    have := bfAfter_dist_le E n s s
    rw [show (bfInit s).1 s = 0 from by simp [bfInit]] at this
    exact this
  have hup' : ∀ v steps, WalkSeg (edgeMem E) s steps v →
      d' v ≤ ((walkWeight steps : ℤ) : WithTop ℤ) := by
    intro v steps hw
    calc d' v ≤ d' s + ((walkWeight steps : ℤ) : WithTop ℤ) := walkseg_fix_upper hfix' hw
      _ = ((walkWeight steps : ℤ) : WithTop ℤ) := by rw [hs0', zero_add]
  have hach' : ∀ v, d' v ≠ ⊤ → ∃ steps, WalkSeg (edgeMem E) s steps v ∧
      ((walkWeight steps : ℤ) : WithTop ℤ) ≤ d' v := by
    rw [hd']
    exact bfAfter_reach E n s
  have hto_adj : ∀ u v w, edgeMem E u v w → adjMem g u v w := by
    intro u v w he
    exact (hrel u v w).mpr he
  have hto_E : ∀ u v w, adjMem g u v w → edgeMem E u v w := by
    intro u v w he
    exact (hrel u v w).mp he
  intro v
  refine le_antisymm ?_ ?_
  · by_cases hv : d' v = ⊤
    · rw [hv]; exact le_top
    · obtain ⟨steps, hw, hle⟩ := hach' v hv
      exact le_trans (hmain.1 v steps (hw.mono hto_adj)) hle
  · by_cases hv : d v = ⊤
    · rw [hv]; exact le_top
    · obtain ⟨steps, hw, -, hweq⟩ := hmain.2.1 v hv
      rw [← hweq]
      exact hup' v steps (hw.mono hto_E)

/-- The edge list derived from an adjacency list (one entry `[u, v, w]`
per stored directed edge). -/
def edgesOfAdj (g : AdjList) : List EdgeT :=
  g.flatMap (fun p => p.2.map (fun e => (p.1, e.1, e.2)))

theorem adjGet_of_mem_nodup {g : AdjList} (hnd : (adjKeys g).Nodup)
    {u : ℕ} {l : List AdjEdge} (h : (u, l) ∈ g) : adjGet g u = some l := by
  induction g with
  | nil => simp at h
  | cons p t ih =>
    rcases List.mem_cons.mp h with h' | h'
    · rw [← h']
      simp [adjGet]
    · have hne : p.1 ≠ u := by
        intro heq
        have hkey : u ∈ adjKeys t := List.mem_map.mpr ⟨(u, l), h', rfl⟩
        rw [adjKeys, List.map_cons, List.nodup_cons] at hnd
        exact hnd.1 (heq ▸ hkey)
      rw [adjKeys, List.map_cons, List.nodup_cons] at hnd
      simp only [adjGet, if_neg hne]
      exact ih hnd.2 h'

theorem adjMem_iff_edgesOfAdj {g : AdjList} (hnd : (adjKeys g).Nodup) (u v : ℕ) (w : ℤ) :
    adjMem g u v w ↔ (u, v, w) ∈ edgesOfAdj g := by
  constructor
  · rintro ⟨l, hget, hm⟩
    unfold edgesOfAdj
    rw [List.mem_flatMap]
    exact ⟨(u, l), adjGet_eq_some_mem hget, List.mem_map.mpr ⟨(v, w), hm, rfl⟩⟩
  · intro h
    unfold edgesOfAdj at h
    rw [List.mem_flatMap] at h
    obtain ⟨p, hp, hm⟩ := h
    obtain ⟨e, he, heq⟩ := List.mem_map.mp hm
    have h1 : p.1 = u := congrArg Prod.fst heq
    have h2 : e.1 = v := congrArg (fun x => x.2.1) heq
    have h3 : e.2 = w := congrArg (fun x => x.2.2) heq
    refine ⟨p.2, ?_, ?_⟩
    · rw [← h1]
      exact adjGet_of_mem_nodup hnd (by rw [show (p.1, p.2) = p from rfl]; exact hp)
    · rw [← h2, ← h3]
      exact he

/-- C8 witness: on the spec's concrete graph, both algorithms finish and
their distance tables agree on every vertex. -/
theorem bellmanFord_agrees_dijkstra_witness :
    ∃ d p d' p', dijkstra graphC1 0 32 = .done (d, p) ∧
      bellmanFord (edgesOfAdj graphC1) 4 0 = some (d', p') ∧
      (∀ v, d v = d' v) := by
  have hdone : (dijkstra graphC1 0 32).isDone = true := by decide
  obtain ⟨r, hr⟩ := RunRes.isDone_iff.mp hdone
  obtain ⟨d, p⟩ := r
  have hbfsome : (bellmanFord (edgesOfAdj graphC1) 4 0).isSome = true := by decide
  obtain ⟨st, hst⟩ := Option.isSome_iff_exists.mp hbfsome
  obtain ⟨d', p'⟩ := st
  refine ⟨d, p, d', p', hr, hst, ?_⟩
  exact bellmanFord_agrees_dijkstra graphC1 (edgesOfAdj graphC1) 4 0 32 d p d' p'
    (by unfold WFAdj; decide) (by unfold AdjNonneg; decide)
    (adjMem_iff_edgesOfAdj (by decide)) hr hst

theorem eqvGen_mono' {r p : ℕ → ℕ → Prop} (h : ∀ a b, r a b → p a b) {x y : ℕ}
    (hr : Relation.EqvGen r x y) : Relation.EqvGen p x y := by
  induction hr with
  | rel a b hab => exact Relation.EqvGen.rel a b (h a b hab)
  | refl a => exact Relation.EqvGen.refl a
  | symm a b _ ih => exact Relation.EqvGen.symm a b ih
  | trans a b c _ _ ih1 ih2 => exact Relation.EqvGen.trans a b c ih1 ih2

theorem eqvGen_iff_of_iff {r p : ℕ → ℕ → Prop} (h : ∀ a b, r a b ↔ p a b) (x y : ℕ) :
    Relation.EqvGen r x y ↔ Relation.EqvGen p x y :=
  ⟨eqvGen_mono' (fun a b => (h a b).mp), eqvGen_mono' (fun a b => (h a b).mpr)⟩

/-- Adding a single pair `(a, b)` to a generated equivalence: the new
relation joins `x` and `y` iff they were joined, or they connect through
the new pair in one of the two directions. -/
theorem eqvGen_sup_single {r : ℕ → ℕ → Prop} {a b : ℕ} (x y : ℕ) :
    Relation.EqvGen (fun u v => r u v ∨ (u = a ∧ v = b)) x y ↔
      Relation.EqvGen r x y ∨
      (Relation.EqvGen r x a ∧ Relation.EqvGen r b y) ∨
      (Relation.EqvGen r x b ∧ Relation.EqvGen r a y) := by
  constructor
  · intro h
    induction h with
    | rel u v huv =>
      rcases huv with huv | ⟨rfl, rfl⟩
      · exact Or.inl (Relation.EqvGen.rel u v huv)
      · exact Or.inr (Or.inl ⟨Relation.EqvGen.refl u, Relation.EqvGen.refl v⟩)
    | refl u => exact Or.inl (Relation.EqvGen.refl u)
    | symm u v _ ih =>
      rcases ih with h1 | ⟨h1, h2⟩ | ⟨h1, h2⟩
      · exact Or.inl (Relation.EqvGen.symm u v h1)
      · exact Or.inr (Or.inr ⟨Relation.EqvGen.symm _ _ h2, Relation.EqvGen.symm _ _ h1⟩)
      · exact Or.inr (Or.inl ⟨Relation.EqvGen.symm _ _ h2, Relation.EqvGen.symm _ _ h1⟩)
    | trans u m v _ _ ih1 ih2 =>
      rcases ih1 with h1 | ⟨h1, h2⟩ | ⟨h1, h2⟩ <;>
        rcases ih2 with h3 | ⟨h3, h4⟩ | ⟨h3, h4⟩
      · exact Or.inl (Relation.EqvGen.trans _ _ _ h1 h3)
      · exact Or.inr (Or.inl ⟨Relation.EqvGen.trans _ _ _ h1 h3, h4⟩)
      · exact Or.inr (Or.inr ⟨Relation.EqvGen.trans _ _ _ h1 h3, h4⟩)
      · exact Or.inr (Or.inl ⟨h1, Relation.EqvGen.trans _ _ _ h2 h3⟩)
      · exact Or.inr (Or.inl ⟨h1, h4⟩)
      · exact Or.inl (Relation.EqvGen.trans _ _ _ h1 h4)
      · exact Or.inr (Or.inr ⟨h1, Relation.EqvGen.trans _ _ _ h2 h3⟩)
      · exact Or.inl (Relation.EqvGen.trans _ _ _ h1 h4)
      · exact Or.inr (Or.inr ⟨h1, h4⟩)
  · intro h
    have hmono : ∀ {x y : ℕ}, Relation.EqvGen r x y →
        Relation.EqvGen (fun u v => r u v ∨ (u = a ∧ v = b)) x y :=
      fun h' => eqvGen_mono' (fun _ _ hr => Or.inl hr) h'
    have hab : Relation.EqvGen (fun u v => r u v ∨ (u = a ∧ v = b)) a b :=
      Relation.EqvGen.rel a b (Or.inr ⟨rfl, rfl⟩)
    rcases h with h1 | ⟨h1, h2⟩ | ⟨h1, h2⟩
    · exact hmono h1
    · exact Relation.EqvGen.trans _ _ _ (hmono h1)
        (Relation.EqvGen.trans _ _ _ hab (hmono h2))
    · exact Relation.EqvGen.trans _ _ _ (hmono h1)
        (Relation.EqvGen.trans _ _ _ (Relation.EqvGen.symm _ _ hab) (hmono h2))

/-- Canonical representative map obtained by folding the edges: each edge
merges its source's class into its target's class. -/
def repFun (E : List EdgeT) : ℕ → ℕ :=
  E.foldl (fun r e => fun x => if r x = r e.1 then r e.2.1 else r x) id

theorem repFun_append (E : List EdgeT) (e : EdgeT) :
    repFun (E ++ [e]) = fun x =>
      if repFun E x = repFun E e.1 then repFun E e.2.1 else repFun E x := by
  unfold repFun
  rw [List.foldl_append]
  rfl

theorem joinedE_nil (x y : ℕ) : JoinedE [] x y ↔ x = y := by
  constructor
  · intro h
    induction h with
    | rel a b hab => obtain ⟨w, hw⟩ := hab; simp at hw
    | refl a => rfl
    | symm a b _ ih => exact ih.symm
    | trans a b c _ _ ih1 ih2 => exact ih1.trans ih2
  · rintro rfl
    exact Relation.EqvGen.refl x

theorem merge_eq_iff (r : ℕ → ℕ) (a b x y : ℕ) :
    ((if r x = r a then r b else r x) = (if r y = r a then r b else r y)) ↔
      (r x = r y ∨ (r x = r a ∧ r b = r y) ∨ (r x = r b ∧ r a = r y)) := by
  by_cases hx : r x = r a <;> by_cases hy : r y = r a
  · rw [if_pos hx, if_pos hy]
    constructor
    · intro _
      exact Or.inl (hx.trans hy.symm)
    · intro _
      rfl
  · rw [if_pos hx, if_neg hy]
    constructor
    · intro h
      exact Or.inr (Or.inl ⟨hx, h⟩)
    · rintro (h | ⟨h1, h2⟩ | ⟨h1, h2⟩)
      · exact absurd (h.symm.trans hx) hy
      · exact h2
      · exact absurd h2.symm hy
  · rw [if_neg hx, if_pos hy]
    constructor
    · intro h
      exact Or.inr (Or.inr ⟨h, hy.symm⟩)
    · rintro (h | ⟨h1, h2⟩ | ⟨h1, h2⟩)
      · exact absurd (h.trans hy) hx
      · exact absurd h1 hx
      · exact h1
  · rw [if_neg hx, if_neg hy]
    constructor
    · exact Or.inl
    · rintro (h | ⟨h1, h2⟩ | ⟨h1, h2⟩)
      · exact h
      · exact absurd h1 hx
      · exact absurd h2.symm hy

theorem joinedE_iff_rep (E : List EdgeT) : ∀ x y : ℕ, JoinedE E x y ↔ repFun E x = repFun E y := by
  induction E using List.reverseRecOn with
  | nil =>
    intro x y
    rw [joinedE_nil]
    show _ ↔ id x = id y
    simp
  | append_singleton E e ih =>
    intro x y
    have hbase : ∀ u v : ℕ, (∃ w, (u, v, w) ∈ E ++ [e]) ↔
        ((∃ w, (u, v, w) ∈ E) ∨ (u = e.1 ∧ v = e.2.1)) := by
      intro u v
      constructor
      · rintro ⟨w, hw⟩
        rcases List.mem_append.mp hw with h | h
        · exact Or.inl ⟨w, h⟩
        · simp only [List.mem_singleton] at h
          exact Or.inr ⟨congrArg Prod.fst h, congrArg (fun z => z.2.1) h⟩
      · rintro (⟨w, hw⟩ | ⟨rfl, rfl⟩)
        · exact ⟨w, by simp [hw]⟩
        · exact ⟨e.2.2, by simp⟩
    have hiff : JoinedE (E ++ [e]) x y ↔
        (JoinedE E x y ∨ (JoinedE E x e.1 ∧ JoinedE E e.2.1 y) ∨
          (JoinedE E x e.2.1 ∧ JoinedE E e.1 y)) := by
      unfold JoinedE
      rw [eqvGen_iff_of_iff hbase x y]
      exact eqvGen_sup_single x y
    rw [hiff, repFun_append]
    simp only
    rw [ih x y, ih x e.1, ih x e.2.1, ih e.2.1 y, ih e.1 y]
    exact (merge_eq_iff (repFun E) e.1 e.2.1 x y).symm

instance joinedE_decidable (E : List EdgeT) (x y : ℕ) : Decidable (JoinedE E x y) :=
  decidable_of_iff' _ (joinedE_iff_rep E x y)

theorem joinedE_mono {E F : List EdgeT} (h : ∀ e ∈ E, e ∈ F) {x y : ℕ}
    (hj : JoinedE E x y) : JoinedE F x y := by
  refine eqvGen_mono' ?_ hj
  rintro a b ⟨w, hw⟩
  exact ⟨w, h _ hw⟩

theorem joinedE_perm {E F : List EdgeT} (h : E.Perm F) (x y : ℕ) :
    JoinedE E x y ↔ JoinedE F x y :=
  ⟨joinedE_mono (fun e he => h.mem_iff.mp he), joinedE_mono (fun e he => h.mem_iff.mpr he)⟩

theorem joinedE_of_mem {E : List EdgeT} {e : EdgeT} (h : e ∈ E) : JoinedE E e.1 e.2.1 :=
  Relation.EqvGen.rel _ _ ⟨e.2.2, by simpa using h⟩

/-- Absorbing an edge whose endpoints are already joined does not change
the closure. -/
theorem joinedE_closure_subset {E F : List EdgeT}
    (h : ∀ e ∈ E, JoinedE F e.1 e.2.1) {x y : ℕ} (hj : JoinedE E x y) : JoinedE F x y := by
  induction hj with
  | rel a b hab =>
    obtain ⟨w, hw⟩ := hab
    exact h (a, b, w) hw
  | refl a => exact Relation.EqvGen.refl a
  | symm a b _ ih => exact Relation.EqvGen.symm a b ih
  | trans a b c _ _ ih1 ih2 => exact Relation.EqvGen.trans a b c ih1 ih2

/-- Forests built edge by edge: each appended edge joins two components
that were previously disjoint. -/
inductive IsForestB : List EdgeT → Prop where
  | nil : IsForestB []
  | snoc {F : List EdgeT} {u v : ℕ} {w : ℤ} :
      IsForestB F → ¬ JoinedE F u v → IsForestB (F ++ [(u, v, w)])

theorem joinedE_snoc (E : List EdgeT) (e : EdgeT) (x y : ℕ) :
    JoinedE (E ++ [e]) x y ↔
      JoinedE E x y ∨ (JoinedE E x e.1 ∧ JoinedE E e.2.1 y) ∨
        (JoinedE E x e.2.1 ∧ JoinedE E e.1 y) := by
  have hbase : ∀ u v : ℕ, (∃ w, (u, v, w) ∈ E ++ [e]) ↔
      ((∃ w, (u, v, w) ∈ E) ∨ (u = e.1 ∧ v = e.2.1)) := by
    intro u v
    constructor
    · rintro ⟨w, hw⟩
      rcases List.mem_append.mp hw with h | h
      · exact Or.inl ⟨w, h⟩
      · simp only [List.mem_singleton] at h
        exact Or.inr ⟨congrArg Prod.fst h, congrArg (fun z => z.2.1) h⟩
    · rintro (⟨w, hw⟩ | ⟨rfl, rfl⟩)
      · exact ⟨w, by simp [hw]⟩
      · exact ⟨e.2.2, by simp⟩
  unfold JoinedE
  rw [eqvGen_iff_of_iff hbase x y]
  exact eqvGen_sup_single x y

theorem acyclic_of_forestB {F : List EdgeT} (h : IsForestB F) : Acyclic F := by
  induction h with
  | nil =>
    intro pre e post hsplit
    exact absurd hsplit (by simp)
  | @snoc F u v w hF hne ih =>
    intro pre f post hsplit
    rcases List.eq_nil_or_concat post with rfl | ⟨post', last, rfl⟩
    · obtain ⟨rfl, hf⟩ : F = pre ∧ (u, v, w) = f := by
        obtain ⟨h1, h2⟩ := List.append_inj' hsplit (by simp)
        exact ⟨h1, by simpa using h2⟩
      intro hj
      rw [List.append_nil] at hj
      rw [← hf] at hj
      exact hne hj
    · have hsplit' : F ++ [(u, v, w)] = (pre ++ f :: post') ++ [last] := by
        rw [hsplit, List.concat_eq_append]
        simp
      obtain ⟨hF', hlast⟩ := List.append_inj' hsplit' (by simp)
      have hlast' : (u, v, w) = last := by simpa using hlast
      rw [List.concat_eq_append, ← hlast']
      intro hj
      have hj' : JoinedE ((pre ++ post') ++ [(u, v, w)]) f.1 f.2.1 := by
        rw [List.append_assoc]
        exact hj
      have hXF : ∀ e ∈ pre ++ post', e ∈ F := by
        intro e he
        rw [hF']
        rcases List.mem_append.mp he with h | h
        · exact List.mem_append.mpr (Or.inl h)
        · exact List.mem_append.mpr (Or.inr (List.mem_cons_of_mem _ h))
      have hfF : f ∈ F := by
        rw [hF']
        exact List.mem_append.mpr (Or.inr (by simp))
      rcases (joinedE_snoc (pre ++ post') (u, v, w) f.1 f.2.1).mp hj' with h | ⟨h1, h2⟩ | ⟨h1, h2⟩
      · exact ih pre f post' hF' h
      · refine hne ?_
        refine Relation.EqvGen.trans _ _ _
          (Relation.EqvGen.symm _ _ (joinedE_mono hXF h1)) ?_
        exact Relation.EqvGen.trans _ _ _ (joinedE_of_mem hfF)
          (Relation.EqvGen.symm _ _ (joinedE_mono hXF h2))
      · refine hne ?_
        refine Relation.EqvGen.trans _ _ _ (joinedE_mono hXF h2) ?_
        exact Relation.EqvGen.trans _ _ _
          (Relation.EqvGen.symm _ _ (joinedE_of_mem hfF)) (joinedE_mono hXF h1)

theorem forestB_of_acyclic {F : List EdgeT} (h : Acyclic F) : IsForestB F := by
  induction F using List.reverseRecOn with
  | nil => exact IsForestB.nil
  | append_singleton F e ih =>
    obtain ⟨u, v, w⟩ := e
    refine IsForestB.snoc (ih ?_) ?_
    · intro pre f post hsplit
      have h' := h pre f (post ++ [(u, v, w)]) (by rw [hsplit]; simp)
      intro hj
      refine h' (joinedE_mono ?_ hj)
      intro e' he'
      rcases List.mem_append.mp he' with h'' | h''
      · exact List.mem_append.mpr (Or.inl h'')
      · exact List.mem_append.mpr (Or.inr (List.mem_append.mpr (Or.inl h'')))
    · have h' := h F (u, v, w) [] rfl
      intro hj
      exact h' (by rwa [List.append_nil])

theorem acyclic_perm {F F' : List EdgeT} (h : F.Perm F') (hF : Acyclic F) : Acyclic F' := by
  intro pre f post hsplit
  have hfmem : f ∈ F := h.mem_iff.mpr (by rw [hsplit]; simp)
  obtain ⟨pre₀, post₀, hsplit₀⟩ := List.append_of_mem hfmem
  have hperm : (pre ++ post).Perm (pre₀ ++ post₀) := by
    have h1 : (f :: (pre ++ post)).Perm (f :: (pre₀ ++ post₀)) := by
      refine List.Perm.trans List.perm_middle.symm ?_
      rw [← hsplit]
      refine List.Perm.trans h.symm ?_
      rw [hsplit₀]
      exact List.perm_middle
    exact h1.cons_inv
  intro hj
  exact hF pre₀ f post₀ hsplit₀ ((joinedE_perm hperm _ _).mp hj)

theorem acyclic_sublist {F F' : List EdgeT} (h : F'.Sublist F) (hF : Acyclic F) :
    Acyclic F' := by
  intro pre f post hsplit
  rw [hsplit] at h
  obtain ⟨r₁, r₂, hFr, hpre, hfpost⟩ := List.append_sublist_iff.mp h
  obtain ⟨s₁, s₂, hr₂, hfmem, hpost⟩ := List.cons_sublist_iff.mp hfpost
  obtain ⟨a, b, hs₁⟩ := List.append_of_mem hfmem
  have hsplitF : F = (r₁ ++ a) ++ f :: (b ++ s₂) := by
    rw [hFr, hr₂, hs₁]
    simp
  have := hF (r₁ ++ a) f (b ++ s₂) hsplitF
  intro hj
  refine this (joinedE_mono ?_ hj)
  intro e he
  rcases List.mem_append.mp he with h' | h'
  · exact List.mem_append.mpr (Or.inl (List.mem_append.mpr
      (Or.inl (hpre.subset h'))))
  · exact List.mem_append.mpr (Or.inr (List.mem_append.mpr
      (Or.inr (hpost.subset h'))))

/-- Number of connected components among the vertices `0 … n-1` induced by
the edge list. -/
def compCard (n : ℕ) (F : List EdgeT) : ℕ :=
  (Finset.image (repFun F) (Finset.range n)).card

theorem repFun_nil : repFun [] = id := rfl

/-- Every vertex is joined to its representative. -/
theorem joined_repFun (E : List EdgeT) : ∀ x, JoinedE E x (repFun E x) := by
  induction E using List.reverseRecOn with
  | nil =>
    intro x
    rw [repFun_nil]
    exact Relation.EqvGen.refl x
  | append_singleton E e ih =>
    intro x
    rw [repFun_append]
    simp only
    have hmono : ∀ {a b : ℕ}, JoinedE E a b → JoinedE (E ++ [e]) a b :=
      fun h => joinedE_mono (fun e' he' => by simp [he']) h
    by_cases hx : repFun E x = repFun E e.1
    · rw [if_pos hx]
      have h1 : JoinedE E x e.1 := (joinedE_iff_rep E x e.1).mpr hx
      have h2 : JoinedE (E ++ [e]) e.1 e.2.1 :=
        joinedE_of_mem (by simp : e ∈ E ++ [e])
      exact Relation.EqvGen.trans _ _ _ (hmono h1)
        (Relation.EqvGen.trans _ _ _ h2 (hmono (ih e.2.1)))
    · rw [if_neg hx]
      exact hmono (ih x)

theorem forest_count {n : ℕ} {F : List EdgeT}
    (hb : ∀ e ∈ F, e.1 < n ∧ e.2.1 < n) (hf : IsForestB F) :
    compCard n F + F.length = n := by
  induction hf with
  | nil =>
    unfold compCard
    rw [repFun_nil, Finset.image_id]
    simp
  | @snoc F u v w hF hne ih =>
    have hb' : ∀ e ∈ F, e.1 < n ∧ e.2.1 < n := by
      intro e he
      exact hb e (by simp [he])
    have hu : u < n := (hb (u, v, w) (by simp)).1
    have hv : v < n := (hb (u, v, w) (by simp)).2
    have hne' : repFun F u ≠ repFun F v := fun h => hne ((joinedE_iff_rep F u v).mpr h)
    have himg : Finset.image (repFun (F ++ [(u, v, w)])) (Finset.range n) =
        (Finset.image (repFun F) (Finset.range n)).erase (repFun F u) := by
      ext z
      rw [Finset.mem_image, Finset.mem_erase]
      constructor
      · rintro ⟨x, hx, hz⟩
        rw [repFun_append] at hz
        simp only at hz
        by_cases hcase : repFun F x = repFun F u
        · rw [if_pos hcase] at hz
          exact ⟨hz ▸ fun h => hne' h.symm, Finset.mem_image.mpr
            ⟨v, Finset.mem_range.mpr hv, hz⟩⟩
        · rw [if_neg hcase] at hz
          exact ⟨hz ▸ hcase, Finset.mem_image.mpr ⟨x, hx, hz⟩⟩
      · rintro ⟨hzne, hzmem⟩
        obtain ⟨x, hx, hz⟩ := Finset.mem_image.mp hzmem
        refine ⟨x, hx, ?_⟩
        rw [repFun_append]
        simp only
        rw [if_neg (hz ▸ hzne), hz]
    unfold compCard at ih ⊢
    rw [himg, Finset.card_erase_of_mem
      (Finset.mem_image.mpr ⟨u, Finset.mem_range.mpr hu, rfl⟩)]
    have hpos : 1 ≤ (Finset.image (repFun F) (Finset.range n)).card :=
      Finset.card_pos.mpr ⟨repFun F u,
        Finset.mem_image.mpr ⟨u, Finset.mem_range.mpr hu, rfl⟩⟩
    have := ih hb'
    simp only [List.length_append, List.length_singleton]
    omega

theorem repFun_lt {n : ℕ} {F : List EdgeT} (hb : ∀ e ∈ F, e.1 < n ∧ e.2.1 < n) :
    ∀ x, x < n → repFun F x < n := by
  induction F using List.reverseRecOn with
  | nil =>
    intro x hx
    exact hx
  | append_singleton F e ih =>
    intro x hx
    have hb' : ∀ e' ∈ F, e'.1 < n ∧ e'.2.1 < n := fun e' he' => hb e' (by simp [he'])
    rw [repFun_append]
    simp only
    by_cases h : repFun F x = repFun F e.1
    · rw [if_pos h]
      exact ih hb' e.2.1 (hb e (by simp)).2
    · rw [if_neg h]
      exact ih hb' x hx

/-- Matroid exchange for forests: a smaller forest can be extended by some
edge of any larger forest. -/
theorem forest_exchange {n : ℕ} {F1 F2 : List EdgeT}
    (hb1 : ∀ e ∈ F1, e.1 < n ∧ e.2.1 < n) (hb2 : ∀ e ∈ F2, e.1 < n ∧ e.2.1 < n)
    (hf1 : IsForestB F1) (hf2 : IsForestB F2) (hlen : F1.length < F2.length) :
    ∃ e ∈ F2, ¬ JoinedE F1 e.1 e.2.1 := by
  by_contra hno
  push_neg at hno
  have hclosure : ∀ x y, JoinedE F2 x y → JoinedE F1 x y := by
    intro x y h
    refine joinedE_closure_subset ?_ h
    intro e he
    exact hno e he
  have hsurj : Set.SurjOn (repFun F1)
      (↑(Finset.image (repFun F2) (Finset.range n)))
      (↑(Finset.image (repFun F1) (Finset.range n))) := by
    intro z hz
    simp only [Finset.coe_image, Set.mem_image, Finset.mem_coe, Finset.mem_range] at hz ⊢
    obtain ⟨x, hx, hzx⟩ := hz
    refine ⟨repFun F2 x, ⟨x, hx, rfl⟩, ?_⟩
    rw [← hzx]
    have h1 : JoinedE F1 x (repFun F2 x) := hclosure _ _ (joined_repFun F2 x)
    exact ((joinedE_iff_rep F1 _ _).mp h1).symm
  have hcard := Finset.card_le_card_of_surjOn (repFun F1) hsurj
  have hc1 := forest_count hb1 hf1
  have hc2 := forest_count hb2 hf2
  unfold compCard at hc1 hc2
  omega

/-- One step of the abstract greedy forest construction: accept the edge
iff its endpoints are in different components of the accumulator. -/
def greedyStep (acc : List EdgeT) (e : EdgeT) : List EdgeT :=
  if repFun acc e.1 = repFun acc e.2.1 then acc else acc ++ [e]

/-- The greedy forest of a (sorted) edge list. -/
def greedyAcc (S : List EdgeT) : List EdgeT := S.foldl greedyStep []

theorem greedyStep_pos {acc : List EdgeT} {e : EdgeT}
    (h : repFun acc e.1 = repFun acc e.2.1) : greedyStep acc e = acc := by
  unfold greedyStep
  rw [if_pos h]

theorem greedyStep_neg {acc : List EdgeT} {e : EdgeT}
    (h : ¬ repFun acc e.1 = repFun acc e.2.1) : greedyStep acc e = acc ++ [e] := by
  unfold greedyStep
  rw [if_neg h]

theorem greedy_extends : ∀ (l : List EdgeT) (acc : List EdgeT),
    ∃ suf, l.foldl greedyStep acc = acc ++ suf ∧ suf.Sublist l := by
  intro l
  induction l with
  | nil => exact fun acc => ⟨[], by simp, by simp⟩
  | cons e t ih =>
    intro acc
    rw [List.foldl_cons]
    by_cases h : repFun acc e.1 = repFun acc e.2.1
    · rw [greedyStep_pos h]
      obtain ⟨suf, h1, h2⟩ := ih acc
      exact ⟨suf, h1, h2.cons e⟩
    · rw [greedyStep_neg h]
      obtain ⟨suf, h1, h2⟩ := ih (acc ++ [e])
      refine ⟨e :: suf, ?_, h2.cons₂ e⟩
      rw [h1]
      simp

theorem greedy_forest : ∀ (l : List EdgeT) (acc : List EdgeT),
    IsForestB acc → IsForestB (l.foldl greedyStep acc) := by
  intro l
  induction l with
  | nil => exact fun acc h => h
  | cons e t ih =>
    intro acc h
    rw [List.foldl_cons]
    by_cases hc : repFun acc e.1 = repFun acc e.2.1
    · rw [greedyStep_pos hc]
      exact ih acc h
    · rw [greedyStep_neg hc]
      refine ih _ ?_
      have : ¬ JoinedE acc e.1 e.2.1 := fun hj => hc ((joinedE_iff_rep acc _ _).mp hj)
      obtain ⟨u, v, w⟩ := e
      exact IsForestB.snoc h this

theorem greedy_joined : ∀ (l : List EdgeT) (acc : List EdgeT) (x y : ℕ),
    JoinedE (l.foldl greedyStep acc) x y ↔ JoinedE (acc ++ l) x y := by
  intro l
  induction l with
  | nil =>
    intro acc x y
    rw [List.foldl_nil, List.append_nil]
  | cons e t ih =>
    intro acc x y
    rw [List.foldl_cons]
    by_cases hc : repFun acc e.1 = repFun acc e.2.1
    · rw [greedyStep_pos hc, ih]
      have hjoined : JoinedE acc e.1 e.2.1 := (joinedE_iff_rep acc _ _).mpr hc
      constructor
      · intro h
        refine joinedE_mono ?_ h
        intro e' he'
        rcases List.mem_append.mp he' with h' | h'
        · exact List.mem_append.mpr (Or.inl h')
        · exact List.mem_append.mpr (Or.inr (List.mem_cons_of_mem _ h'))
      · intro h
        refine joinedE_closure_subset ?_ h
        intro e' he'
        rcases List.mem_append.mp he' with h' | h'
        · exact joinedE_of_mem (List.mem_append.mpr (Or.inl h'))
        · rcases List.mem_cons.mp h' with h'' | h''
          · rw [h'']
            exact joinedE_mono (fun a ha => List.mem_append.mpr (Or.inl ha)) hjoined
          · exact joinedE_of_mem (List.mem_append.mpr (Or.inr h''))
    · rw [greedyStep_neg hc, ih]
      refine joinedE_perm ?_ x y
      rw [List.append_assoc]
      exact (List.Perm.append_left acc (@List.perm_middle _ e [] t)).symm.symm

/-- Default edge for positional access. -/
def dEdge : EdgeT := (0, 0, 0)

/-- Total weight of an edge list. -/
def totalWeight (F : List EdgeT) : ℤ := (F.map (fun e => e.2.2)).sum

theorem totalWeight_le_of_pointwise : ∀ (l1 l2 : List EdgeT), l1.length = l2.length →
    (∀ i, i < l1.length → (l1.getD i dEdge).2.2 ≤ (l2.getD i dEdge).2.2) →
    totalWeight l1 ≤ totalWeight l2 := by
  intro l1
  induction l1 with
  | nil =>
    intro l2 hlen _
    have : l2 = [] := by
      cases l2 with
      | nil => rfl
      | cons b t => simp at hlen
    rw [this]
  | cons a t1 ih =>
    intro l2 hlen hpt
    cases l2 with
    | nil => simp at hlen
    | cons b t2 =>
      have h0 := hpt 0 (by simp)
      simp only [List.getD_cons_zero] at h0
      have ht : totalWeight t1 ≤ totalWeight t2 := by
        refine ih t2 (by simpa using hlen) ?_
        intro i hi
        have := hpt (i + 1) (by simpa using Nat.succ_lt_succ hi)
        simpa using this
      unfold totalWeight at ht ⊢
      simp only [List.map_cons, List.sum_cons]
      exact add_le_add h0 ht

theorem getD_eq_getElem' (l : List EdgeT) (i : ℕ) (h : i < l.length) :
    l.getD i dEdge = l[i] := List.getD_eq_getElem l dEdge h

/-- Pointwise weight domination: the `i`-th cheapest greedy edge is no
heavier than the `i`-th cheapest edge of any competitor forest drawn from
the sorted list `S`. -/
theorem greedy_pairwise {n : ℕ} {S : List EdgeT}
    (hbS : ∀ e ∈ S, e.1 < n ∧ e.2.1 < n)
    (hsorted : S.Pairwise (fun a b => a.2.2 ≤ b.2.2))
    {F : List EdgeT} (hFsub : ∀ e ∈ F, e ∈ S) (hFac : Acyclic F) :
    ∀ i, i < F.length →
      ((greedyAcc S).getD i dEdge).2.2 ≤ ((jsSort edgeLe F).getD i dEdge).2.2 := by
  set T := greedyAcc S with hT
  obtain ⟨suf, hsuf, hsufsub⟩ := greedy_extends S []
  have hTsub : T.Sublist S := by
    rw [hT]
    show (S.foldl greedyStep []).Sublist S
    rw [hsuf]
    simpa using hsufsub
  have hTb : ∀ e ∈ T, e.1 < n ∧ e.2.1 < n := fun e he => hbS e (hTsub.subset he)
  have hTfor : IsForestB T := greedy_forest S [] IsForestB.nil
  have hTsorted : T.Pairwise (fun a b => a.2.2 ≤ b.2.2) := hsorted.sublist hTsub
  have hTjoin : ∀ x y, JoinedE T x y ↔ JoinedE S x y := by
    intro x y
    rw [hT]
    show JoinedE (S.foldl greedyStep []) x y ↔ _
    rw [greedy_joined S [] x y]
    simp
  have hFb : ∀ e ∈ F, e.1 < n ∧ e.2.1 < n := fun e he => hbS e (hFsub e he)
  have hFlen : F.length ≤ T.length := by
    by_contra hlt
    push_neg at hlt
    obtain ⟨e, he, hnj⟩ := forest_exchange hTb hFb hTfor (forestB_of_acyclic hFac) hlt
    exact hnj ((hTjoin e.1 e.2.1).mpr (joinedE_of_mem (hFsub e he)))
  set F' := jsSort edgeLe F with hF'
  have hF'perm : F'.Perm F := jsSort_perm edgeLe F
  have hF'len : F'.length = F.length := hF'perm.length_eq
  have hF'sorted : F'.Pairwise (fun a b => a.2.2 ≤ b.2.2) := by
    have h := jsSort_pairwise edgeLe
      (fun a b => by unfold edgeLe; rcases le_total a.2.2 b.2.2 with h | h <;> simp [h])
      (fun a b c hab hbc => by
        unfold edgeLe at hab hbc ⊢
        simp only [decide_eq_true_eq] at hab hbc ⊢
        exact le_trans hab hbc) F
    exact h.imp (fun hab => by simpa [edgeLe] using hab)
  by_contra hbad
  push_neg at hbad
  obtain ⟨i, hiF, hilt⟩ := hbad
  have hP : ∃ i, i < F.length ∧ ¬ ((T.getD i dEdge).2.2 ≤ (F'.getD i dEdge).2.2) :=
    ⟨i, hiF, not_le.mpr hilt⟩
  classical
  set i₀ := Nat.find hP with hi₀def
  obtain ⟨hi₀F, hi₀lt⟩ := Nat.find_spec hP
  have hmin : ∀ j, j < i₀ → j < F.length →
      (T.getD j dEdge).2.2 ≤ (F'.getD j dEdge).2.2 := by
    intro j hj hjF
    have := Nat.find_min hP hj
    push_neg at this
    exact this hjF
  have hi₀T : i₀ < T.length := lt_of_lt_of_le hi₀F hFlen
  set A := T.take i₀ with hA
  set B := F'.take (i₀ + 1) with hB
  have hAlen : A.length = i₀ := by
    rw [hA, List.length_take]
    omega
  have hBlen : B.length = i₀ + 1 := by
    rw [hB, List.length_take]
    omega
  have hAsub : A.Sublist T := List.take_sublist i₀ T
  have hBsub : B.Sublist F' := List.take_sublist (i₀ + 1) F'
  have hAfor : IsForestB A :=
    forestB_of_acyclic (acyclic_sublist hAsub (acyclic_of_forestB hTfor))
  have hF'ac : Acyclic F' := acyclic_perm hF'perm.symm hFac
  have hBfor : IsForestB B := forestB_of_acyclic (acyclic_sublist hBsub hF'ac)
  have hAb : ∀ e ∈ A, e.1 < n ∧ e.2.1 < n := fun e he => hTb e (hAsub.subset he)
  have hBb : ∀ e ∈ B, e.1 < n ∧ e.2.1 < n := fun e he =>
    hbS e (hFsub e (hF'perm.mem_iff.mp (hBsub.subset he)))
  obtain ⟨e, heB, hNoJoin⟩ := forest_exchange hAb hBb hAfor hBfor (by omega)
  have hew : e.2.2 ≤ (F'.getD i₀ dEdge).2.2 := by
    obtain ⟨j, hjm, hje⟩ := List.mem_take_iff_getElem.mp (hB ▸ heB)
    have hjlt : j < F'.length := lt_of_lt_of_le hjm (by simp)
    rw [getD_eq_getElem' F' i₀ (by omega)]
    have hj_le : j ≤ i₀ := by
      have := lt_min_iff.mp hjm
      omega
    rcases Nat.lt_or_ge j i₀ with hj | hj
    · have := List.pairwise_iff_getElem.mp hF'sorted j i₀ hjlt (by omega) hj
      rw [hje] at this
      exact this
    · have hji : j = i₀ := by omega
      subst hji
      exact le_of_eq (congrArg (fun x => x.2.2) hje.symm)
  have hTi₀ : (F'.getD i₀ dEdge).2.2 < (T.getD i₀ dEdge).2.2 := not_le.mp hi₀lt
  have hewlt : e.2.2 < (T.getD i₀ dEdge).2.2 := lt_of_le_of_lt hew hTi₀
  have hposn : ∀ f ∈ T, f.2.2 < (T.getD i₀ dEdge).2.2 → f ∈ A := by
    intro f hf hflt
    obtain ⟨j, hj, hje⟩ := List.mem_iff_getElem.mp hf
    have hji : j < i₀ := by
      by_contra hge
      push_neg at hge
      have hle : (T.getD i₀ dEdge).2.2 ≤ f.2.2 := by
        rcases Nat.lt_or_ge i₀ j with h' | h'
        · have := List.pairwise_iff_getElem.mp hTsorted i₀ j hi₀T hj h'
          rw [hje] at this
          rwa [getD_eq_getElem' T i₀ hi₀T]
        · have hij : i₀ = j := by omega
          rw [hij, getD_eq_getElem' T j hj, hje]
      omega
    rw [hA]
    exact List.mem_take_iff_getElem.mpr ⟨j, by omega, hje⟩
  have heS : e ∈ S := hFsub e (hF'perm.mem_iff.mp (hBsub.subset heB))
  obtain ⟨S1, S2, hS⟩ := List.append_of_mem heS
  have hsplitfold : T = (e :: S2).foldl greedyStep (S1.foldl greedyStep []) := by
    rw [hT]
    show S.foldl greedyStep [] = _
    rw [hS, List.foldl_append]
  set acc1 := S1.foldl greedyStep [] with hacc1
  by_cases htest : repFun acc1 e.1 = repFun acc1 e.2.1
  · -- rejected: e's endpoints already joined by earlier accepted edges
    have hJacc : JoinedE acc1 e.1 e.2.1 := (joinedE_iff_rep acc1 _ _).mpr htest
    have hsub1 : ∀ f ∈ acc1, f ∈ A := by
      intro f hf
      obtain ⟨suf2, hsuf2, -⟩ := greedy_extends (e :: S2) acc1
      have hfT : f ∈ T := by
        rw [hsplitfold, hsuf2]
        exact List.mem_append.mpr (Or.inl hf)
      obtain ⟨suf1, hsuf1, hsub1S⟩ := greedy_extends S1 []
      have hfS1 : f ∈ S1 := by
        rw [hacc1, hsuf1] at hf
        simp only [List.nil_append] at hf
        exact hsub1S.subset hf
      have hfw : f.2.2 ≤ e.2.2 := by
        rw [hS] at hsorted
        have := (List.pairwise_append.mp hsorted).2.2 f hfS1 e (by simp)
        exact this
      exact hposn f hfT (lt_of_le_of_lt hfw hewlt)
    exact hNoJoin (joinedE_mono hsub1 hJacc)
  · -- accepted: e itself is one of the first i₀ greedy edges
    have heT : e ∈ T := by
      rw [hsplitfold, List.foldl_cons, greedyStep_neg htest]
      obtain ⟨suf2, hsuf2, -⟩ := greedy_extends S2 (acc1 ++ [e])
      rw [hsuf2]
      exact List.mem_append.mpr (Or.inl (by simp))
    exact hNoJoin (joinedE_of_mem (hposn e heT hewlt))

theorem jsSort_weight_sorted (l : List EdgeT) :
    (jsSort edgeLe l).Pairwise (fun a b => a.2.2 ≤ b.2.2) := by
  have h := jsSort_pairwise edgeLe
    (fun a b => by unfold edgeLe; rcases le_total a.2.2 b.2.2 with h | h <;> simp [h])
    (fun a b c hab hbc => by
      unfold edgeLe at hab hbc ⊢
      simp only [decide_eq_true_eq] at hab hbc ⊢
      exact le_trans hab hbc) l
  exact h.imp (fun hab => by simpa [edgeLe] using hab)

theorem greedyAcc_sublist (S : List EdgeT) : (greedyAcc S).Sublist S := by
  obtain ⟨suf, hsuf, hsub⟩ := greedy_extends S []
  unfold greedyAcc
  rw [hsuf]
  simpa using hsub

theorem greedyAcc_forest (S : List EdgeT) : IsForestB (greedyAcc S) :=
  greedy_forest S [] IsForestB.nil

theorem greedyAcc_joined (S : List EdgeT) (x y : ℕ) :
    JoinedE (greedyAcc S) x y ↔ JoinedE S x y := by
  unfold greedyAcc
  rw [greedy_joined S [] x y]
  simp

/-- Forests with the same connectivity closure have the same size. -/
theorem spanning_forest_length {n : ℕ} {F1 F2 : List EdgeT}
    (hb1 : ∀ e ∈ F1, e.1 < n ∧ e.2.1 < n) (hb2 : ∀ e ∈ F2, e.1 < n ∧ e.2.1 < n)
    (hf1 : IsForestB F1) (hf2 : IsForestB F2)
    (h12 : ∀ e ∈ F1, JoinedE F2 e.1 e.2.1) (h21 : ∀ e ∈ F2, JoinedE F1 e.1 e.2.1) :
    F1.length = F2.length := by
  by_contra hne
  rcases Nat.lt_or_ge F1.length F2.length with h | h
  · obtain ⟨e, he, hnj⟩ := forest_exchange hb1 hb2 hf1 hf2 h
    exact hnj (h21 e he)
  · have h' : F2.length < F1.length := by omega
    obtain ⟨e, he, hnj⟩ := forest_exchange hb2 hb1 hf2 hf1 h'
    exact hnj (h12 e he)

theorem totalWeight_perm {l1 l2 : List EdgeT} (h : l1.Perm l2) :
    totalWeight l1 = totalWeight l2 := by
  unfold totalWeight
  exact (h.map (fun e => e.2.2)).sum_eq

/-- Weight minimality of the greedy forest among spanning forests. -/
theorem greedy_min {n : ℕ} {S : List EdgeT}
    (hbS : ∀ e ∈ S, e.1 < n ∧ e.2.1 < n)
    (hsorted : S.Pairwise (fun a b => a.2.2 ≤ b.2.2))
    {F : List EdgeT} (hFsub : ∀ e ∈ F, e ∈ S) (hFac : Acyclic F)
    (hFspan : ∀ e ∈ S, JoinedE F e.1 e.2.1) :
    totalWeight (greedyAcc S) ≤ totalWeight F := by
  have hTb : ∀ e ∈ greedyAcc S, e.1 < n ∧ e.2.1 < n :=
    fun e he => hbS e ((greedyAcc_sublist S).subset he)
  have hFb : ∀ e ∈ F, e.1 < n ∧ e.2.1 < n := fun e he => hbS e (hFsub e he)
  have hlen : (greedyAcc S).length = F.length := by
    refine spanning_forest_length hTb hFb (greedyAcc_forest S) (forestB_of_acyclic hFac) ?_ ?_
    · intro e he
      exact hFspan e ((greedyAcc_sublist S).subset he)
    · intro e he
      exact (greedyAcc_joined S e.1 e.2.1).mpr (joinedE_of_mem (hFsub e he))
  have hsortlen : (jsSort edgeLe F).length = F.length := (jsSort_perm edgeLe F).length_eq
  have h1 : totalWeight (greedyAcc S) ≤ totalWeight (jsSort edgeLe F) := by
    refine totalWeight_le_of_pointwise _ _ (by omega) ?_
    intro i hi
    exact greedy_pairwise hbS hsorted hFsub hFac i (by omega)
  rw [totalWeight_perm (jsSort_perm edgeLe F)] at h1
  exact h1

/-- `r` is the union-find root of `x` under parent function `p`. -/
def UFRoot (p : ℕ → ℕ) (x r : ℕ) : Prop := (∃ k, p^[k] x = r) ∧ p r = r

theorem ufRoot_unique {p : ℕ → ℕ} {x r1 r2 : ℕ}
    (h1 : UFRoot p x r1) (h2 : UFRoot p x r2) : r1 = r2 := by
  obtain ⟨⟨k1, hk1⟩, hr1⟩ := h1
  obtain ⟨⟨k2, hk2⟩, hr2⟩ := h2
  have key : ∀ a b : ℕ, ∀ s t : ℕ, a ≤ b → p^[a] x = s → p s = s → p^[b] x = t → t = s := by
    intro a b s t hab hs hfix ht
    obtain ⟨m, rfl⟩ := Nat.exists_eq_add_of_le hab
    rw [Nat.add_comm, Function.iterate_add_apply, hs, Function.iterate_fixed hfix] at ht
    exact ht.symm
  rcases le_total k1 k2 with h | h
  · exact (key k1 k2 r1 r2 h hk1 hr1 hk2).symm
  · exact key k2 k1 r2 r1 h hk2 hr2 hk1

/-- Structural invariant of the parent function: in-range closure,
identity outside the range, and every chain reaches a fixpoint. -/
def UFInv (n : ℕ) (p : ℕ → ℕ) : Prop :=
  (∀ x, x < n → p x < n) ∧ (∀ x, n ≤ x → p x = x) ∧
    (∀ x, ∃ k, p (p^[k] x) = p^[k] x)

theorem iter_lt {n : ℕ} {p : ℕ → ℕ} (hb : ∀ x, x < n → p x < n) :
    ∀ j x, x < n → p^[j] x < n := by
  intro j
  induction j with
  | zero => intro x hx; simpa using hx
  | succ j ih =>
    intro x hx
    rw [Function.iterate_succ_apply']
    exact hb _ (ih x hx)

/-- With at most `n` in-range vertices every chain reaches its root within
`n` steps. -/
theorem root_within {n : ℕ} {p : ℕ → ℕ} (h : UFInv n p) :
    ∀ x, p (p^[n] x) = p^[n] x := by
  obtain ⟨hb, hid, hreach⟩ := h
  intro x
  rcases Nat.lt_or_ge x n with hx | hx
  · obtain ⟨k, hk⟩ := hreach x
    have hPdec : ∀ m, Decidable (p (p^[m] x) = p^[m] x) := fun m => Nat.decEq _ _
    classical
    have hPex : ∃ m, p (p^[m] x) = p^[m] x := ⟨k, hk⟩
    set k₀ := Nat.find hPex with hk₀def
    have hfix₀ : p (p^[k₀] x) = p^[k₀] x := Nat.find_spec hPex
    have hmin : ∀ m, m < k₀ → ¬ p (p^[m] x) = p^[m] x := fun m hm => Nat.find_min hPex hm
    have hinj : ∀ i j, i < j → j ≤ k₀ → p^[i] x ≠ p^[j] x := by
      intro i j hij hjk heq
      have hval : p^[k₀ - j + i] x = p^[k₀] x := by
        have h1 : p^[k₀ - j + i] x = p^[k₀ - j] (p^[i] x) := Function.iterate_add_apply p _ _ x
        have h2 : p^[k₀ - j + j] x = p^[k₀ - j] (p^[j] x) := Function.iterate_add_apply p _ _ x
        rw [h1, heq, ← h2]
        congr 1
        omega
      have hfix' : p (p^[k₀ - j + i] x) = p^[k₀ - j + i] x := by
        rw [hval]
        exact hfix₀
      exact hmin (k₀ - j + i) (by omega) hfix'
    have hcard : k₀ + 1 ≤ n := by
      have hmaps : ∀ m ∈ Finset.range (k₀ + 1), p^[m] x ∈ Finset.range n := by
        intro m _
        exact Finset.mem_range.mpr (iter_lt hb m x hx)
      have hinjOn : Set.InjOn (fun m => p^[m] x) ↑(Finset.range (k₀ + 1)) := by
        intro i hi j hj hij
        simp only [Finset.coe_range, Set.mem_Iio] at hi hj
        by_contra hne
        rcases Nat.lt_or_ge i j with h' | h'
        · exact hinj i j h' (by omega) hij
        · exact hinj j i (by omega) (by omega) hij.symm
      have := Finset.card_le_card_of_injOn (fun m => p^[m] x) hmaps hinjOn
      simpa using this
    have : p^[n] x = p^[k₀] x := by
      have : p^[n - k₀ + k₀] x = p^[n - k₀] (p^[k₀] x) := Function.iterate_add_apply p _ _ x
      rw [Function.iterate_fixed hfix₀] at this
      rw [← this]
      congr 1
      omega
    rw [this]
    exact hfix₀
  · have hpx : p x = x := hid x hx
    rw [Function.iterate_fixed hpx]
    exact hpx

theorem root_exists {n : ℕ} {p : ℕ → ℕ} (h : UFInv n p) (x : ℕ) :
    UFRoot p x (p^[n] x) := ⟨⟨n, rfl⟩, root_within h x⟩

/-- `find` with enough fuel returns the root and only rewires nodes
directly onto roots of their own chains. -/
theorem findF_spec : ∀ (fuel k : ℕ) (p : ℕ → ℕ) (u : ℕ), k < fuel →
    p (p^[k] u) = p^[k] u →
    (findF fuel p u).1 = p^[k] u ∧
    ∀ y, (findF fuel p u).2 y = p y ∨
      ((∃ j, p^[j] y = (findF fuel p u).2 y) ∧
        p ((findF fuel p u).2 y) = (findF fuel p u).2 y) := by
  intro fuel
  induction fuel with
  | zero => intro k p u hk; omega
  | succ f ih =>
    intro k p u hk hfix
    have hstep : findF (f + 1) p u =
        (if p u = u then (u, p) else
          ((findF f p (p u)).1,
            fun x => if x = u then (findF f p (p u)).1 else (findF f p (p u)).2 x)) := rfl
    by_cases hpu : p u = u
    · have hres : findF (f + 1) p u = (u, p) := by
        rw [hstep, if_pos hpu]
      rw [hres]
      constructor
      · exact (Function.iterate_fixed hpu k).symm
      · intro y
        exact Or.inl rfl
    · cases k with
      | zero =>
        simp only [Function.iterate_zero, id_eq] at hfix
        exact absurd hfix hpu
      | succ k' =>
        have hfix' : p (p^[k'] (p u)) = p^[k'] (p u) := by
          rw [← Function.iterate_succ_apply]
          exact hfix
        obtain ⟨ih1, ih2⟩ := ih k' p (p u) (by omega) hfix'
        have hres : findF (f + 1) p u =
            ((findF f p (p u)).1,
              fun x => if x = u then (findF f p (p u)).1 else (findF f p (p u)).2 x) := by
          rw [hstep, if_neg hpu]
        rw [hres]
        constructor
        · rw [ih1, Function.iterate_succ_apply]
        · intro y
          by_cases hy : y = u
          · refine Or.inr ?_
            simp only [hy, if_true, eq_self_iff_true, if_pos]
            constructor
            · exact ⟨k' + 1, by rw [ih1, Function.iterate_succ_apply]⟩
            · rw [ih1, ← Function.iterate_succ_apply]
              exact hfix
          · simp only [if_neg hy]
            exact ih2 y

/-- Shape of the parent function after path compression: each node keeps
its parent or points straight at a root of its own chain. -/
def Compresses (p p' : ℕ → ℕ) : Prop :=
  ∀ y, p' y = p y ∨ ((∃ j, p^[j] y = p' y) ∧ p (p' y) = p' y)

theorem compress_root_of {p p' : ℕ → ℕ} (hp' : Compresses p p') {r : ℕ}
    (hr : p r = r) : p' r = r := by
  rcases hp' r with h | ⟨⟨j, hj⟩, _⟩
  · rw [h, hr]
  · rw [Function.iterate_fixed hr] at hj
    exact hj.symm

theorem compress_root_back {p p' : ℕ → ℕ} (hp' : Compresses p p') {r : ℕ}
    (hr' : p' r = r) : p r = r := by
  rcases hp' r with h | ⟨_, hfix⟩
  · rw [← h, hr']
  · rw [hr'] at hfix
    exact hfix

theorem compress_reach_fwd {p p' : ℕ → ℕ} (hp' : Compresses p p') {r : ℕ}
    (hr : p r = r) : ∀ (k x : ℕ), p^[k] x = r → ∃ m, p'^[m] x = r := by
  intro k
  induction k with
  | zero =>
    intro x hx
    exact ⟨0, hx⟩
  | succ k ih =>
    intro x hx
    rw [Function.iterate_succ_apply] at hx
    rcases hp' x with h | ⟨⟨j, hj⟩, hfix⟩
    · obtain ⟨m, hm⟩ := ih (p x) hx
      exact ⟨m + 1, by rw [Function.iterate_succ_apply, h]; exact hm⟩
    · have hx' : p' x = r :=
        ufRoot_unique ⟨⟨j, hj⟩, hfix⟩ ⟨⟨k + 1, by rw [Function.iterate_succ_apply]; exact hx⟩, hr⟩
      exact ⟨1, by simpa using hx'⟩

theorem compress_reach_bwd {p p' : ℕ → ℕ} (hp' : Compresses p p') {r : ℕ}
    (hr : p r = r) : ∀ (k x : ℕ), p'^[k] x = r → ∃ m, p^[m] x = r := by
  intro k
  induction k with
  | zero =>
    intro x hx
    exact ⟨0, hx⟩
  | succ k ih =>
    intro x hx
    rw [Function.iterate_succ_apply] at hx
    obtain ⟨m, hm⟩ := ih (p' x) hx
    rcases hp' x with h | ⟨⟨j, hj⟩, hfix⟩
    · exact ⟨m + 1, by rw [Function.iterate_succ_apply, ← h]; exact hm⟩
    · have : p' x = r := by
        rw [Function.iterate_fixed hfix] at hm
        exact hm
      exact ⟨j, by rw [hj, this]⟩

/-- Path compression leaves the root of every node unchanged. -/
theorem compress_ufroot {p p' : ℕ → ℕ} (hp' : Compresses p p') (x r : ℕ) :
    UFRoot p x r ↔ UFRoot p' x r := by
  constructor
  · rintro ⟨⟨k, hk⟩, hr⟩
    exact ⟨compress_reach_fwd hp' hr k x hk, compress_root_of hp' hr⟩
  · rintro ⟨⟨k, hk⟩, hr'⟩
    have hr := compress_root_back hp' hr'
    exact ⟨compress_reach_bwd hp' hr k x hk, hr⟩

theorem compress_inv {n : ℕ} {p p' : ℕ → ℕ} (h : UFInv n p) (hp' : Compresses p p') :
    UFInv n p' := by
  obtain ⟨hb, hid, hreach⟩ := h
  refine ⟨?_, ?_, ?_⟩
  · intro x hx
    rcases hp' x with h | ⟨⟨j, hj⟩, _⟩
    · rw [h]; exact hb x hx
    · rw [← hj]; exact iter_lt hb j x hx
  · intro x hx
    rcases hp' x with h | ⟨⟨j, hj⟩, _⟩
    · rw [h]; exact hid x hx
    · rw [← hj, Function.iterate_fixed (hid x hx)]
  · intro x
    have hroot := root_exists ⟨hb, hid, hreach⟩ x
    obtain ⟨⟨k, hk⟩, hr'⟩ := (compress_ufroot hp' x _).mp hroot
    exact ⟨k, by rw [hk]; exact hr'⟩

theorem link_reach {p2 : ℕ → ℕ} {a₀ b₀ : ℕ} (hne : a₀ ≠ b₀)
    (ha0 : p2 a₀ = a₀) (hb0 : p2 b₀ = b₀) :
    ∀ (k x r : ℕ), p2^[k] x = r → p2 r = r →
      UFRoot (fun z => if z = a₀ then b₀ else p2 z) x (if r = a₀ then b₀ else r) := by
  have hrootb : (fun z => if z = a₀ then b₀ else p2 z) b₀ = b₀ := by
    simp only [if_neg (Ne.symm hne)]
    exact hb0
  intro k
  induction k with
  | zero =>
    intro x r hx hr
    simp only [Function.iterate_zero, id_eq] at hx
    subst hx
    by_cases hra : x = a₀
    · rw [if_pos hra]
      exact ⟨⟨1, by simp [hra]⟩, hrootb⟩
    · rw [if_neg hra]
      exact ⟨⟨0, rfl⟩, by simp only [if_neg hra]; exact hr⟩
  | succ k ih =>
    intro x r hx hr
    rw [Function.iterate_succ_apply] at hx
    by_cases hxa : x = a₀
    · have hra : r = a₀ := by
        rw [hxa, ha0, Function.iterate_fixed ha0] at hx
        exact hx.symm
      rw [if_pos hra]
      exact ⟨⟨1, by simp [hxa]⟩, hrootb⟩
    · obtain ⟨⟨m, hm⟩, hfix⟩ := ih (p2 x) r hx hr
      refine ⟨⟨m + 1, ?_⟩, hfix⟩
      rw [Function.iterate_succ_apply]
      simp only [if_neg hxa]
      exact hm

/-- Linking two distinct roots `a₀ ↦ b₀` preserves the structural
invariant and merges exactly the two classes, matching the effect of
appending the accepted edge. -/
theorem link_sim {n : ℕ} {p2 : ℕ → ℕ} {acc : List EdgeT} {e : EdgeT} {ra rb a₀ b₀ : ℕ}
    (hUF : UFInv n p2)
    (hJ : ∀ x y, JoinedE acc x y ↔ ∃ r, UFRoot p2 x r ∧ UFRoot p2 y r)
    (hra : UFRoot p2 e.1 ra) (hrb : UFRoot p2 e.2.1 rb) (hne : ra ≠ rb)
    (hran : ra < n) (hrbn : rb < n)
    (hab : (a₀ = ra ∧ b₀ = rb) ∨ (a₀ = rb ∧ b₀ = ra)) :
    UFInv n (fun z => if z = a₀ then b₀ else p2 z) ∧
    (∀ x y, JoinedE (acc ++ [e]) x y ↔
      ∃ r, UFRoot (fun z => if z = a₀ then b₀ else p2 z) x r ∧
        UFRoot (fun z => if z = a₀ then b₀ else p2 z) y r) := by
  have hane : a₀ ≠ b₀ := by
    rcases hab with ⟨h1, h2⟩ | ⟨h1, h2⟩ <;> rw [h1, h2]
    · exact hne
    · exact hne.symm
  have ha0 : p2 a₀ = a₀ := by
    rcases hab with ⟨h1, _⟩ | ⟨h1, _⟩ <;> rw [h1]
    · exact hra.2
    · exact hrb.2
  have hb0 : p2 b₀ = b₀ := by
    rcases hab with ⟨_, h2⟩ | ⟨_, h2⟩ <;> rw [h2]
    · exact hrb.2
    · exact hra.2
  have ha0n : a₀ < n := by
    rcases hab with ⟨h1, _⟩ | ⟨h1, _⟩ <;> rw [h1]
    · exact hran
    · exact hrbn
  have hb0n : b₀ < n := by
    rcases hab with ⟨_, h2⟩ | ⟨_, h2⟩ <;> rw [h2]
    · exact hrbn
    · exact hran
  have hroot3 : ∀ x r, UFRoot p2 x r →
      UFRoot (fun z => if z = a₀ then b₀ else p2 z) x (if r = a₀ then b₀ else r) := by
    rintro x r ⟨⟨k, hk⟩, hr⟩
    exact link_reach hane ha0 hb0 k x r hk hr
  have hinv3 : UFInv n (fun z => if z = a₀ then b₀ else p2 z) := by
    refine ⟨?_, ?_, ?_⟩
    · intro x hx
      by_cases hxa : x = a₀
      · simp only [if_pos hxa]
        exact hb0n
      · simp only [if_neg hxa]
        exact hUF.1 x hx
    · intro x hx
      have hxa : x ≠ a₀ := by omega
      simp only [if_neg hxa]
      exact hUF.2.1 x hx
    · intro x
      obtain ⟨⟨m, hm⟩, hfix⟩ := hroot3 x _ (root_exists hUF x)
      exact ⟨m, by rw [hm]; exact hfix⟩
  refine ⟨hinv3, ?_⟩
  intro x y
  have hRx := root_exists hUF x
  have hRy := root_exists hUF y
  have hJR : ∀ (u v Ru Rv : ℕ), UFRoot p2 u Ru → UFRoot p2 v Rv →
      (JoinedE acc u v ↔ Ru = Rv) := by
    intro u v Ru Rv hu hv
    rw [hJ u v]
    constructor
    · rintro ⟨r, h1, h2⟩
      rw [ufRoot_unique hu h1, ufRoot_unique hv h2]
    · intro h
      exact ⟨Ru, hu, h ▸ hv⟩
  have hx3 := hroot3 x _ hRx
  have hy3 := hroot3 y _ hRy
  rw [joinedE_snoc,
    hJR x y _ _ hRx hRy,
    hJR x e.1 _ _ hRx hra,
    hJR e.2.1 y _ _ hrb hRy,
    hJR x e.2.1 _ _ hRx hrb,
    hJR e.1 y _ _ hra hRy]
  constructor
  · intro h
    refine ⟨if p2^[n] x = a₀ then b₀ else p2^[n] x, hx3, ?_⟩
    have heq : (if p2^[n] x = a₀ then b₀ else p2^[n] x) =
        (if p2^[n] y = a₀ then b₀ else p2^[n] y) := by
      rcases hab with ⟨h1, h2⟩ | ⟨h1, h2⟩ <;> subst h1 <;> subst h2 <;>
        split_ifs <;> omega
    rw [heq]
    exact hy3
  · rintro ⟨r, h1, h2⟩
    have heq : (if p2^[n] x = a₀ then b₀ else p2^[n] x) =
        (if p2^[n] y = a₀ then b₀ else p2^[n] y) := by
      rw [ufRoot_unique hx3 h1, ufRoot_unique hy3 h2]
    rcases hab with ⟨h1', h2'⟩ | ⟨h1', h2'⟩ <;> subst h1' <;> subst h2' <;>
      revert heq <;> split_ifs <;> omega

/-- Coupling invariant between the union-find state and the accepted
edge list: roots classify exactly the connectivity of `acc`. -/
def KInv (n : ℕ) (p : ℕ → ℕ) (acc : List EdgeT) : Prop :=
  UFInv n p ∧ ∀ x y, JoinedE acc x y ↔ ∃ r, UFRoot p x r ∧ UFRoot p y r

theorem kruskalStep_sim {n : ℕ} {p rk : ℕ → ℕ} {acc : List EdgeT} {e : EdgeT}
    (h : KInv n p acc) (he1 : e.1 < n) (he2 : e.2.1 < n) :
    (kruskalStep (n + 1) (p, rk, acc) e).2.2 = greedyStep acc e ∧
    KInv n (kruskalStep (n + 1) (p, rk, acc) e).1
      (kruskalStep (n + 1) (p, rk, acc) e).2.2 := by
  obtain ⟨hUF, hJ⟩ := h
  obtain ⟨hfu1, hfu2⟩ := findF_spec (n + 1) n p e.1 (by omega) (root_within hUF e.1)
  set p1 := (findF (n + 1) p e.1).2 with hp1def
  set ra := (findF (n + 1) p e.1).1 with hradef
  have hC1 : Compresses p p1 := hfu2
  have hUF1 : UFInv n p1 := compress_inv hUF hC1
  have hroots1 : ∀ x r, UFRoot p x r ↔ UFRoot p1 x r := compress_ufroot hC1
  have hraR : UFRoot p e.1 ra := by
    rw [hfu1]
    exact root_exists hUF e.1
  obtain ⟨hfv1, hfv2⟩ := findF_spec (n + 1) n p1 e.2.1 (by omega) (root_within hUF1 e.2.1)
  set p2 := (findF (n + 1) p1 e.2.1).2 with hp2def
  set rb := (findF (n + 1) p1 e.2.1).1 with hrbdef
  have hC2 : Compresses p1 p2 := hfv2
  have hUF2 : UFInv n p2 := compress_inv hUF1 hC2
  have hroots2 : ∀ x r, UFRoot p1 x r ↔ UFRoot p2 x r := compress_ufroot hC2
  have htrans2 : ∀ x r, UFRoot p x r ↔ UFRoot p2 x r :=
    fun x r => (hroots1 x r).trans (hroots2 x r)
  have hrbR : UFRoot p e.2.1 rb := by
    refine (hroots1 e.2.1 rb).mpr ?_
    rw [hfv1]
    exact root_exists hUF1 e.2.1
  have hJ2 : ∀ x y, JoinedE acc x y ↔ ∃ r, UFRoot p2 x r ∧ UFRoot p2 y r := by
    intro x y
    rw [hJ x y]
    constructor
    · rintro ⟨r, h1, h2⟩
      exact ⟨r, (htrans2 x r).mp h1, (htrans2 y r).mp h2⟩
    · rintro ⟨r, h1, h2⟩
      exact ⟨r, (htrans2 x r).mpr h1, (htrans2 y r).mpr h2⟩
  have htest : ra = rb ↔ JoinedE acc e.1 e.2.1 := by
    rw [hJ e.1 e.2.1]
    constructor
    · intro hr
      exact ⟨ra, hraR, hr ▸ hrbR⟩
    · rintro ⟨r, h1, h2⟩
      rw [ufRoot_unique hraR h1, ufRoot_unique hrbR h2]
  have hran : ra < n := by
    obtain ⟨⟨k, hk⟩, _⟩ := hraR
    rw [← hk]
    exact iter_lt hUF.1 k e.1 he1
  have hrbn : rb < n := by
    obtain ⟨⟨k, hk⟩, _⟩ := hrbR
    rw [← hk]
    exact iter_lt hUF.1 k e.2.1 he2
  have hstep : kruskalStep (n + 1) (p, rk, acc) e =
      (if ra ≠ rb then
        ((unionF (n + 1) p2 rk e.1 e.2.1).1,
          (unionF (n + 1) p2 rk e.1 e.2.1).2, acc ++ [e])
      else (p2, rk, acc)) := rfl
  by_cases hj : JoinedE acc e.1 e.2.1
  · have hcond : ¬ ra ≠ rb := not_not_intro (htest.mpr hj)
    rw [hstep, if_neg hcond]
    refine ⟨?_, hUF2, hJ2⟩
    exact (greedyStep_pos ((joinedE_iff_rep acc e.1 e.2.1).mp hj)).symm
  · have hne : ra ≠ rb := fun hr => hj (htest.mp hr)
    rw [hstep, if_pos hne]
    constructor
    · exact (greedyStep_neg (fun hrep => hj ((joinedE_iff_rep acc e.1 e.2.1).mpr hrep))).symm
    · obtain ⟨hfu'1, hfu'2⟩ :=
        findF_spec (n + 1) n p2 e.1 (by omega) (root_within hUF2 e.1)
      set p2a := (findF (n + 1) p2 e.1).2 with hp2adef
      set ra' := (findF (n + 1) p2 e.1).1 with hra'def
      have hC3 : Compresses p2 p2a := hfu'2
      have hUF2a : UFInv n p2a := compress_inv hUF2 hC3
      have hroots3 : ∀ x r, UFRoot p2 x r ↔ UFRoot p2a x r := compress_ufroot hC3
      have hra'R : UFRoot p2 e.1 ra' := by
        rw [hfu'1]
        exact root_exists hUF2 e.1
      have heqa : ra' = ra := ufRoot_unique hra'R ((htrans2 e.1 ra).mp hraR)
      obtain ⟨hfv'1, hfv'2⟩ :=
        findF_spec (n + 1) n p2a e.2.1 (by omega) (root_within hUF2a e.2.1)
      set p2b := (findF (n + 1) p2a e.2.1).2 with hp2bdef
      set rb' := (findF (n + 1) p2a e.2.1).1 with hrb'def
      have hC4 : Compresses p2a p2b := hfv'2
      have hUF2b : UFInv n p2b := compress_inv hUF2a hC4
      have hroots4 : ∀ x r, UFRoot p2a x r ↔ UFRoot p2b x r := compress_ufroot hC4
      have htransb : ∀ x r, UFRoot p2 x r ↔ UFRoot p2b x r :=
        fun x r => (hroots3 x r).trans (hroots4 x r)
      have hrb'R : UFRoot p2a e.2.1 rb' := by
        rw [hfv'1]
        exact root_exists hUF2a e.2.1
      have heqb : rb' = rb :=
        ufRoot_unique ((hroots4 e.2.1 rb').mp hrb'R)
          ((htransb e.2.1 rb).mp ((htrans2 e.2.1 rb).mp hrbR))
      have hJb : ∀ x y, JoinedE acc x y ↔ ∃ r, UFRoot p2b x r ∧ UFRoot p2b y r := by
        intro x y
        rw [hJ2 x y]
        constructor
        · rintro ⟨r, h1, h2⟩
          exact ⟨r, (htransb x r).mp h1, (htransb y r).mp h2⟩
        · rintro ⟨r, h1, h2⟩
          exact ⟨r, (htransb x r).mpr h1, (htransb y r).mpr h2⟩
      have hrab : UFRoot p2b e.1 ra := (htransb e.1 ra).mp ((htrans2 e.1 ra).mp hraR)
      have hrbb : UFRoot p2b e.2.1 rb := (htransb e.2.1 rb).mp ((htrans2 e.2.1 rb).mp hrbR)
      have hunion : unionF (n + 1) p2 rk e.1 e.2.1 =
          (if ra' ≠ rb' then
            (if rk ra' > rk rb' then (fun x => if x = rb' then ra' else p2b x, rk)
             else if rk ra' < rk rb' then (fun x => if x = ra' then rb' else p2b x, rk)
             else (fun x => if x = rb' then ra' else p2b x,
               fun x => if x = ra' then rk x + 1 else rk x))
          else (p2b, rk)) := rfl
      have hne' : ra' ≠ rb' := by
        rw [heqa, heqb]
        exact hne
      show KInv n (unionF (n + 1) p2 rk e.1 e.2.1).1 (acc ++ [e])
      rw [hunion, if_pos hne']
      by_cases hr1 : rk ra' > rk rb'
      · rw [if_pos hr1]
        obtain ⟨hi, hjn⟩ := link_sim hUF2b hJb hrab hrbb hne hran hrbn
          (Or.inr ⟨heqb, heqa⟩)
        exact ⟨hi, hjn⟩
      · rw [if_neg hr1]
        by_cases hr2 : rk ra' < rk rb'
        · rw [if_pos hr2]
          obtain ⟨hi, hjn⟩ := link_sim hUF2b hJb hrab hrbb hne hran hrbn
            (Or.inl ⟨heqa, heqb⟩)
          exact ⟨hi, hjn⟩
        · rw [if_neg hr2]
          obtain ⟨hi, hjn⟩ := link_sim hUF2b hJb hrab hrbb hne hran hrbn
            (Or.inr ⟨heqb, heqa⟩)
          exact ⟨hi, hjn⟩

theorem kruskal_fold_sim {n : ℕ} : ∀ (l : List EdgeT) (p rk : ℕ → ℕ) (acc : List EdgeT),
    KInv n p acc → (∀ e ∈ l, e.1 < n ∧ e.2.1 < n) →
    (l.foldl (kruskalStep (n + 1)) (p, rk, acc)).2.2 = l.foldl greedyStep acc := by
  intro l
  induction l with
  | nil =>
    intro p rk acc _ _
    rfl
  | cons e t ih =>
    intro p rk acc h hb
    rw [List.foldl_cons, List.foldl_cons]
    obtain ⟨h1, h2⟩ := kruskalStep_sim h (hb e (by simp)).1 (hb e (by simp)).2
    have heta : kruskalStep (n + 1) (p, rk, acc) e =
        ((kruskalStep (n + 1) (p, rk, acc) e).1,
          (kruskalStep (n + 1) (p, rk, acc) e).2.1,
          (kruskalStep (n + 1) (p, rk, acc) e).2.2) := rfl
    rw [heta, h1]
    rw [h1] at h2
    exact ih _ _ _ h2 (fun e' he' => hb e' (by simp [he']))

/-- The union-find implementation computes exactly the abstract greedy
forest of the sorted edge list. -/
theorem kruskal_eq_greedy (E : List EdgeT) (n : ℕ)
    (hb : ∀ e ∈ E, e.1 < n ∧ e.2.1 < n) :
    (kruskal E n).1 = greedyAcc (jsSort edgeLe E) := by
  have hbS : ∀ e ∈ jsSort edgeLe E, e.1 < n ∧ e.2.1 < n :=
    fun e he => hb e ((jsSort_perm edgeLe E).subset he)
  have hid : ∀ (k x : ℕ), (fun x : ℕ => x)^[k] x = x := by
    intro k
    induction k with
    | zero => intro x; rfl
    | succ k ihk =>
      intro x
      rw [Function.iterate_succ_apply]
      exact ihk x
  have hinit : KInv n (fun x => x) [] := by
    refine ⟨⟨fun x hx => hx, fun x _ => rfl, fun x => ⟨0, rfl⟩⟩, ?_⟩
    intro x y
    rw [joinedE_nil]
    constructor
    · rintro rfl
      exact ⟨x, ⟨⟨0, rfl⟩, rfl⟩, ⟨⟨0, rfl⟩, rfl⟩⟩
    · rintro ⟨r, ⟨⟨k, hk⟩, _⟩, ⟨⟨m, hm⟩, _⟩⟩
      rw [hid k x] at hk
      rw [hid m y] at hm
      rw [hk, ← hm]
  exact kruskal_fold_sim (jsSort edgeLe E) (fun x => x) (fun _ => 0) [] hinit hbS

/-- C2: for every edge list on `vertexCount` vertices, the edge set
returned by `kruskal` is drawn from the input, is a forest (no cycle:
every returned edge is a bridge of the returned set), has total weight
less than or equal to the total weight of any spanning forest of the
input graph, and contains exactly `vertexCount - 1` edges whenever the
input graph is connected — strictly fewer when it is not. -/
theorem kruskal_minimum_spanning_forest (E : List EdgeT) (n : ℕ)
    (hb : ∀ e ∈ E, e.1 < n ∧ e.2.1 < n) :
    Acyclic (kruskal E n).1 ∧
    (∀ e ∈ (kruskal E n).1, e ∈ E) ∧
    (∀ F : List EdgeT, (∀ e ∈ F, e ∈ E) → Acyclic F →
      (∀ e ∈ E, JoinedE F e.1 e.2.1) →
      totalWeight (kruskal E n).1 ≤ totalWeight F) ∧
    ((∀ x, x < n → ∀ y, y < n → JoinedE E x y) → (kruskal E n).1.length = n - 1) ∧
    ((∃ x y, x < n ∧ y < n ∧ ¬ JoinedE E x y) → (kruskal E n).1.length < n - 1) := by
  have hkg := kruskal_eq_greedy E n hb
  have hperm : (jsSort edgeLe E).Perm E := jsSort_perm edgeLe E
  have hbS : ∀ e ∈ jsSort edgeLe E, e.1 < n ∧ e.2.1 < n :=
    fun e he => hb e (hperm.subset he)
  have hsorted := jsSort_weight_sorted E
  have hTfor := greedyAcc_forest (jsSort edgeLe E)
  have hTsubS := greedyAcc_sublist (jsSort edgeLe E)
  have hTsubE : ∀ e ∈ greedyAcc (jsSort edgeLe E), e ∈ E :=
    fun e he => hperm.subset (hTsubS.subset he)
  have hTb : ∀ e ∈ greedyAcc (jsSort edgeLe E), e.1 < n ∧ e.2.1 < n :=
    fun e he => hb e (hTsubE e he)
  have hTjoinE : ∀ x y, JoinedE (greedyAcc (jsSort edgeLe E)) x y ↔ JoinedE E x y :=
    fun x y => (greedyAcc_joined (jsSort edgeLe E) x y).trans (joinedE_perm hperm x y)
  have hcount := forest_count hTb hTfor
  refine ⟨?_, ?_, ?_, ?_, ?_⟩
  · rw [hkg]
    exact acyclic_of_forestB hTfor
  · rw [hkg]
    exact hTsubE
  · intro F hFsub hFac hFspan
    rw [hkg]
    refine greedy_min hbS hsorted ?_ hFac ?_
    · intro e he
      exact hperm.mem_iff.mpr (hFsub e he)
    · intro e he
      exact hFspan e (hperm.subset he)
  · intro hcon
    rw [hkg]
    rcases Nat.eq_zero_or_pos n with hn | hn
    · subst hn
      unfold compCard at hcount
      simp only [Finset.range_zero, Finset.image_empty, Finset.card_empty] at hcount
      omega
    · have hone : compCard n (greedyAcc (jsSort edgeLe E)) = 1 := by
        unfold compCard
        refine le_antisymm ?_ ?_
        · refine Finset.card_le_one.mpr ?_
          intro a ha b hbm
          simp only [Finset.mem_image, Finset.mem_range] at ha hbm
          obtain ⟨x, hx, rfl⟩ := ha
          obtain ⟨y, hy, rfl⟩ := hbm
          have hj : JoinedE (greedyAcc (jsSort edgeLe E)) x y :=
            (hTjoinE x y).mpr (hcon x hx y hy)
          exact (joinedE_iff_rep _ x y).mp hj
        · refine Finset.card_pos.mpr ?_
          exact ⟨repFun (greedyAcc (jsSort edgeLe E)) 0,
            Finset.mem_image.mpr ⟨0, Finset.mem_range.mpr hn, rfl⟩⟩
      omega
  · rintro ⟨x, y, hx, hy, hnj⟩
    rw [hkg]
    have hrepne : repFun (greedyAcc (jsSort edgeLe E)) x ≠
        repFun (greedyAcc (jsSort edgeLe E)) y :=
      fun h => hnj ((hTjoinE x y).mp ((joinedE_iff_rep _ x y).mpr h))
    have h2 : 1 < compCard n (greedyAcc (jsSort edgeLe E)) := by
      unfold compCard
      refine Finset.one_lt_card.mpr ?_
      exact ⟨repFun (greedyAcc (jsSort edgeLe E)) x,
        Finset.mem_image.mpr ⟨x, Finset.mem_range.mpr hx, rfl⟩,
        repFun (greedyAcc (jsSort edgeLe E)) y,
        Finset.mem_image.mpr ⟨y, Finset.mem_range.mpr hy, rfl⟩, hrepne⟩
    omega

/-- Witness for C2 on the spec's concrete graph: on the 4-vertex edge
list the returned forest is the expected minimum spanning tree of total
weight 4 with exactly 3 edges. -/
theorem kruskal_minimum_spanning_forest_witness :
    (kruskal [(0, 1, 1), (1, 2, 2), (0, 2, 4), (2, 3, 1)] 4).1 =
      [(0, 1, 1), (2, 3, 1), (1, 2, 2)] ∧
    totalWeight (kruskal [(0, 1, 1), (1, 2, 2), (0, 2, 4), (2, 3, 1)] 4).1 = 4 ∧
    Acyclic (kruskal [(0, 1, 1), (1, 2, 2), (0, 2, 4), (2, 3, 1)] 4).1 ∧
    (kruskal [(0, 1, 1), (1, 2, 2), (0, 2, 4), (2, 3, 1)] 4).1.length = 4 - 1 := by
  have h := kruskal_minimum_spanning_forest
    [(0, 1, 1), (1, 2, 2), (0, 2, 4), (2, 3, 1)] 4 (by decide)
  exact ⟨by decide, by decide, h.1, h.2.2.2.1 (by decide)⟩
